import Mathlib

/-!
Verification of the questionnaire identifier-integrity and answer-sorting
pipelines (`check_ids.py` / `sort_ans.py`) of the parsnip-data repository.

The document model is a shallow embedding of the JSON values produced by
`json.load`: objects are ordered association lists with string keys (Python
dicts preserve insertion order and cannot hold duplicate keys), arrays are
lists, and scalars are null, booleans, integers and strings.  Fallible
Python code (attribute errors, type errors) is modelled with `Except`;
the unbounded identifier resample loop is modelled with explicit fuel, so
that exhausting every fuel budget corresponds to the Python loop not
terminating.
-/

inductive JValue where
  | null : JValue
  | bool : Bool → JValue
  | num : Int → JValue
  | str : String → JValue
  | arr : List JValue → JValue
  | obj : List (String × JValue) → JValue

mutual
/-- Decidable equality of JSON values (spelled out because `deriving` does
not handle this nested inductive). -/
def decEqJ : (a b : JValue) → Decidable (a = b)
  | .null, .null => isTrue rfl
  | .null, .bool _ => isFalse (fun h => nomatch h)
  | .null, .num _ => isFalse (fun h => nomatch h)
  | .null, .str _ => isFalse (fun h => nomatch h)
  | .null, .arr _ => isFalse (fun h => nomatch h)
  | .null, .obj _ => isFalse (fun h => nomatch h)
  | .bool _, .null => isFalse (fun h => nomatch h)
  | .bool a, .bool b =>
    if h : a = b then isTrue (by rw [h]) else isFalse (fun hh => h (by injection hh))
  | .bool _, .num _ => isFalse (fun h => nomatch h)
  | .bool _, .str _ => isFalse (fun h => nomatch h)
  | .bool _, .arr _ => isFalse (fun h => nomatch h)
  | .bool _, .obj _ => isFalse (fun h => nomatch h)
  | .num _, .null => isFalse (fun h => nomatch h)
  | .num _, .bool _ => isFalse (fun h => nomatch h)
  | .num a, .num b =>
    if h : a = b then isTrue (by rw [h]) else isFalse (fun hh => h (by injection hh))
  | .num _, .str _ => isFalse (fun h => nomatch h)
  | .num _, .arr _ => isFalse (fun h => nomatch h)
  | .num _, .obj _ => isFalse (fun h => nomatch h)
  | .str _, .null => isFalse (fun h => nomatch h)
  | .str _, .bool _ => isFalse (fun h => nomatch h)
  | .str _, .num _ => isFalse (fun h => nomatch h)
  | .str a, .str b =>
    if h : a = b then isTrue (by rw [h]) else isFalse (fun hh => h (by injection hh))
  | .str _, .arr _ => isFalse (fun h => nomatch h)
  | .str _, .obj _ => isFalse (fun h => nomatch h)
  | .arr _, .null => isFalse (fun h => nomatch h)
  | .arr _, .bool _ => isFalse (fun h => nomatch h)
  | .arr _, .num _ => isFalse (fun h => nomatch h)
  | .arr _, .str _ => isFalse (fun h => nomatch h)
  | .arr xs, .arr ys =>
    match decEqJList xs ys with
    | isTrue h => isTrue (by rw [h])
    | isFalse h => isFalse (fun hh => h (by injection hh))
  | .arr _, .obj _ => isFalse (fun h => nomatch h)
  | .obj _, .null => isFalse (fun h => nomatch h)
  | .obj _, .bool _ => isFalse (fun h => nomatch h)
  | .obj _, .num _ => isFalse (fun h => nomatch h)
  | .obj _, .str _ => isFalse (fun h => nomatch h)
  | .obj _, .arr _ => isFalse (fun h => nomatch h)
  | .obj fs, .obj gs =>
    match decEqJFields fs gs with
    | isTrue h => isTrue (by rw [h])
    | isFalse h => isFalse (fun hh => h (by injection hh))

def decEqJList : (xs ys : List JValue) → Decidable (xs = ys)
  | [], [] => isTrue rfl
  | [], _ :: _ => isFalse (fun h => nomatch h)
  | _ :: _, [] => isFalse (fun h => nomatch h)
  | x :: xs, y :: ys =>
    match decEqJ x y with
    | isFalse h => isFalse (fun hh => h (by injection hh))
    | isTrue h1 =>
      match decEqJList xs ys with
      | isTrue h2 => isTrue (by rw [h1, h2])
      | isFalse h2 => isFalse (fun hh => h2 (by injection hh))

def decEqJFields : (fs gs : List (String × JValue)) → Decidable (fs = gs)
  | [], [] => isTrue rfl
  | [], _ :: _ => isFalse (fun h => nomatch h)
  | _ :: _, [] => isFalse (fun h => nomatch h)
  | (k, v) :: fs, (k2, v2) :: gs =>
    if hk : k = k2 then
      match decEqJ v v2 with
      | isFalse h =>
        isFalse (fun hh => h (by simp only [List.cons.injEq, Prod.mk.injEq] at hh; exact hh.1.2))
      | isTrue h1 =>
        match decEqJFields fs gs with
        | isTrue h2 => isTrue (by rw [hk, h1, h2])
        | isFalse h2 =>
          isFalse (fun hh => h2 (by simp only [List.cons.injEq, Prod.mk.injEq] at hh; exact hh.2))
    else
      isFalse (fun hh => hk (by simp only [List.cons.injEq, Prod.mk.injEq] at hh; exact hh.1.1))
end

instance : DecidableEq JValue := decEqJ

instance {ε α : Type} [DecidableEq ε] [DecidableEq α] : DecidableEq (Except ε α) := fun a b =>
  match a, b with
  | .ok x, .ok y =>
    if h : x = y then isTrue (by rw [h]) else isFalse (fun hh => h (by injection hh))
  | .error x, .error y =>
    if h : x = y then isTrue (by rw [h]) else isFalse (fun hh => h (by injection hh))
  | .ok _, .error _ => isFalse (fun h => nomatch h)
  | .error _, .ok _ => isFalse (fun h => nomatch h)

/-- Python truthiness (`bool(v)`) of a JSON value: `None`, `False`, `0`,
`""`, `[]` and `{}` are falsy, everything else is truthy. -/
def truthy : JValue → Bool
  | .null => false
  | .bool b => b
  | .num n => decide (n ≠ 0)
  | .str s => decide (s ≠ "")
  | .arr [] => false
  | .arr (_ :: _) => true
  | .obj [] => false
  | .obj (_ :: _) => true

/-- First-match lookup in an ordered field list; models `dict.__getitem__` /
`dict.get` on a Python dict (whose keys are unique). -/
def lookupF : List (String × JValue) → String → Option JValue
  | [], _ => none
  | (k', v) :: rest, k => if k' = k then some v else lookupF rest k

/-- Replace the value stored at a key, keeping its position; append the
binding when the key is absent.  Models `d[k] = v` on a Python dict. -/
def setField : List (String × JValue) → String → JValue → List (String × JValue)
  | [], k, v => [(k, v)]
  | (k', v') :: rest, k, v =>
    if k' = k then (k, v) :: rest else (k', v') :: setField rest k v

/-- `l[i]` as an option; models indexing into a Python list. -/
def nth : List α → Nat → Option α
  | [], _ => none
  | x :: _, 0 => some x
  | _ :: xs, n + 1 => nth xs n

/-- Apply `f` to the element at index `i` (no-op when out of range); models
in-place mutation of one element of a Python list. -/
def updateAt : List α → Nat → (α → α) → List α
  | [], _, _ => []
  | x :: xs, 0, f => f x :: xs
  | x :: xs, n + 1, f => x :: updateAt xs n f

mutual
/-- `repr(v)` for the values reachable from a questionnaire document; used
by `pyStr` for the elements of containers (Python stringifies container
elements with `repr`). -/
def pyRepr : JValue → String
  | .null => "None"
  | .bool true => "True"
  | .bool false => "False"
  | .num n => toString n
  | .str s => "\x27" ++ s ++ "\x27"
  | .arr xs => "[" ++ pyReprList xs ++ "]"
  | .obj fs => "\x7b" ++ pyReprFields fs ++ "\x7d"

def pyReprList : List JValue → String
  | [] => ""
  | [x] => pyRepr x
  | x :: y :: rest => pyRepr x ++ ", " ++ pyReprList (y :: rest)

def pyReprFields : List (String × JValue) → String
  | [] => ""
  | [(k, v)] => "\x27" ++ k ++ "\x27: " ++ pyRepr v
  | (k, v) :: f :: rest => "\x27" ++ k ++ "\x27: " ++ pyRepr v ++ ", " ++ pyReprFields (f :: rest)
end

/-- `str(v)`: the string itself for strings, `repr`-style rendering
otherwise. -/
def pyStr : JValue → String
  | .str s => s
  | v => pyRepr v

/-- Model of `str.casefold` restricted to the character data appearing in
questionnaire documents (per-character lowercasing). -/
def casefold (s : String) : String := String.mk (s.data.map Char.toLower)

/-- The character list of `s.strip()`: leading and trailing whitespace
removed. -/
def stripChars (cs : List Char) : List Char :=
  ((cs.dropWhile Char.isWhitespace).reverse.dropWhile Char.isWhitespace).reverse

/-- Code-point lexicographic strict comparison of character lists; the
order Python uses to compare strings. -/
def charListLt : List Char → List Char → Bool
  | [], [] => false
  | [], _ :: _ => true
  | _ :: _, [] => false
  | c :: cs, d :: ds =>
    if c.toNat < d.toNat then true
    else if d.toNat < c.toNat then false
    else charListLt cs ds

/-- Python string `<`. -/
def strLt (a b : String) : Bool := charListLt a.data b.data

/- ------------------------------------------------------------------
sort_ans.py
------------------------------------------------------------------ -/

/-- `norm(val)` from sort_ans.py: `None` normalizes to `""`, anything else
is stringified and casefolded.  The argument is the Python-level value of
`item.get(key, None)`: `none` when the field is absent, which Python
cannot distinguish from a stored `None`. -/
def norm : Option JValue → String
  | none => ""
  | some .null => ""
  | some v => casefold (pyStr v)

/-- The `is_missing` test of `sort_key`: the field is `None` (absent or
null) or a string that is empty after stripping whitespace. -/
def isMissing : Option JValue → Bool
  | none => true
  | some .null => true
  | some (.str s) => decide (stripChars s.data = [])
  | some _ => false

/-- `item.get(key, None)` for an answer item (callers guarantee the item
is a dict; on a non-dict Python would raise AttributeError, which the
pipeline models in `sortQuestion`). -/
def getOpt (item : JValue) (key : String) : Option JValue :=
  match item with
  | .obj fs => lookupF fs key
  | _ => none

/-- `sort_key(item)` from sort_ans.py: the pair `(is_missing, norm(v))`. -/
def sort_key (key : String) (item : JValue) : Bool × String :=
  (isMissing (getOpt item key), norm (getOpt item key))

/-- Strict comparison of Python key tuples `(bool, str)`:
lexicographic with `False < True` and code-point string order. -/
def keyLt : Bool × String → Bool × String → Bool
  | (m1, s1), (m2, s2) => (!m1 && m2) || (m1 == m2 && strLt s1 s2)

/-- Non-strict comparison of key tuples (total order, so `x ≤ y ↔ ¬ y < x`). -/
def keyLe (x y : Bool × String) : Bool := !keyLt y x

/-- The preorder `sort_key a ≤ sort_key b` used by the ascending sort. -/
def ansLe (key : String) (a b : JValue) : Prop :=
  keyLe (sort_key key a) (sort_key key b) = true

/-- The preorder `sort_key a ≥ sort_key b` used by the descending sort
(`reverse=True` is a stable sort by the reversed key order). -/
def ansGe (key : String) (a b : JValue) : Prop :=
  keyLe (sort_key key b) (sort_key key a) = true

instance (key : String) : DecidableRel (ansLe key) :=
  fun a b => inferInstanceAs (Decidable (keyLe (sort_key key a) (sort_key key b) = true))

instance (key : String) : DecidableRel (ansGe key) :=
  fun a b => inferInstanceAs (Decidable (keyLe (sort_key key b) (sort_key key a) = true))

/-- `pa.sort(key=sort_key, reverse=desc)` from sort_ans.py.  Python's
`list.sort` is stable; a stable sort with respect to a total preorder is
unique, so insertion sort by the same preorder is its exact semantics. -/
def sortAnswers (key : String) (desc : Bool) (items : List JValue) : List JValue :=
  if desc then List.insertionSort (ansGe key) items
  else List.insertionSort (ansLe key) items

/-- The answer list of the spec's worked sorting example: display values
`["banana", "", "Apple", null, "cherry"]`. -/
def exAnswers : List JValue :=
  [.obj [("answer", .str "banana")], .obj [("answer", .str "")],
   .obj [("answer", .str "Apple")], .obj [("answer", .null)],
   .obj [("answer", .str "cherry")]]

/- ------------------------------------------------------------------
check_ids.py
------------------------------------------------------------------ -/

/-- Python runtime errors the pipelines can raise (uncaught, they abort
the whole run). -/
inductive PyError where
  | attributeError : PyError
  | typeError : PyError
deriving DecidableEq

/-- The state accumulated by the occurrence scan of `main`: the two
per-class occurrence indices (`qid_occ`, `ansid_occ`, ordered dicts whose
keys appear in first-occurrence order with occurrence lists in append
order) and the global `all_ids` set (modelled as a list, only membership
matters). -/
structure ScanState where
  qidOcc : List (JValue × List Nat)
  ansOcc : List (JValue × List (Nat × Nat))
  allIds : List JValue
deriving DecidableEq

/-- `add_occurrence(index_map, key, where)`: `defaultdict(list)` appends
the position to the key's list, creating the key at the end of the dict
on first sight. -/
def addOcc : List (JValue × List π) → JValue → π → List (JValue × List π)
  | [], k, w => [(k, [w])]
  | (k', ws) :: rest, k, w =>
    if k' = k then (k', ws ++ [w]) :: rest else (k', ws) :: addOcc rest k w

/-- `occ_map[k]` with a `[]` default: the occurrence list recorded for an
identifier value. -/
def occList : List (JValue × List π) → JValue → List π
  | [], _ => []
  | (k', ws) :: rest, k => if k' = k then ws else occList rest k

/-- `find_duplicates(occ_map)`: the entries whose occurrence list has
length greater than one, in index order. -/
def findDuplicates (m : List (JValue × List π)) : List (JValue × List π) :=
  m.filter (fun e => decide (1 < e.2.length))

/-- `v.get(k)` on a JSON value: attribute error unless it is a dict. -/
def getAttr (v : JValue) (k : String) : Except PyError (Option JValue) :=
  match v with
  | .obj fs => .ok (lookupF fs k)
  | _ => .error .attributeError

/-- `set.add`. -/
def insertId (ids : List JValue) (v : JValue) : List JValue :=
  if v ∈ ids then ids else v :: ids

/-- The question-id part of the scan loop body: when `q.get("id")` is
truthy, record the occurrence and add the value to `all_ids`. -/
def qidStep (st : ScanState) (qi : Nat) (idv : Option JValue) : ScanState :=
  match idv with
  | some v =>
    if truthy v then
      { st with qidOcc := addOcc st.qidOcc v qi, allIds := insertId st.allIds v }
    else st
  | none => st

/-- The answer-id part of the scan loop body. -/
def ansStep (st : ScanState) (qi ai : Nat) (idv : Option JValue) : ScanState :=
  match idv with
  | some v =>
    if truthy v then
      { st with ansOcc := addOcc st.ansOcc v (qi, ai), allIds := insertId st.allIds v }
    else st
  | none => st

/-- The inner `for ai, ans in enumerate(...)` loop: `ans.get("id")` raises
on a non-dict element, otherwise the truthy id is recorded. -/
def scanAnswersM (qi : Nat) : Nat → ScanState → List JValue → Except PyError ScanState
  | _, st, [] => .ok st
  | ai, st, a :: rest => do
    let aid ← getAttr a "id"
    scanAnswersM qi (ai + 1) (ansStep st qi ai aid) rest

/-- `q.get("possibleAnswers", []) or []`: an absent key or a falsy value
collapses to the empty list; a truthy value is kept as is. -/
def paValue (fs : List (String × JValue)) : JValue :=
  match lookupF fs "possibleAnswers" with
  | some v => if truthy v then v else .arr []
  | none => .arr []

/-- Iterating the possible-answers value inside the id scan.  A truthy
non-list is a runtime error in the source: iterating a nonempty string or
dict yields strings, whose missing `.get` raises AttributeError at the
first element; a nonzero number or `True` is not iterable (TypeError). -/
def iterAnswers : JValue → Except PyError (List JValue)
  | .arr xs => .ok xs
  | .str _ => .error .attributeError
  | .obj _ => .error .attributeError
  | _ => .error .typeError

/-- One iteration of the scan loop of `main` over a question. -/
def scanQuestion (st : ScanState) (qi : Nat) (q : JValue) : Except PyError ScanState := do
  let qid ← getAttr q "id"
  let st1 := qidStep st qi qid
  -- the second `q.get` cannot raise: the first one already required a dict
  let answers ← iterAnswers (paValue (match q with | .obj fs => fs | _ => []))
  scanAnswersM qi 0 st1 answers

/-- The scan loop of `main` starting at question index `n`. -/
def scanFrom (n : Nat) (st : ScanState) : List JValue → Except PyError ScanState
  | [] => .ok st
  | q :: qs => do
    let st' ← scanQuestion st n q
    scanFrom (n + 1) st' qs

/-- The full occurrence scan of `main` (lines 84-103 of check_ids.py). -/
def scanQuestions (questions : List JValue) : Except PyError ScanState :=
  scanFrom 0 ⟨[], [], []⟩ questions

/-- `generate_unique_uuid(existing_ids)`: reject-resample from the token
stream `gen` until the candidate is absent from the running set, then add
it.  The Python loop is unbounded (`while True`); `fuel` bounds how many
attempts we model, and `none` means the loop did not terminate within any
`fuel` attempts. -/
def generate_unique_uuid (gen : Nat → String) :
    Nat → Nat → List JValue → Option (String × Nat × List JValue)
  | 0, _, _ => none
  | fuel + 1, i, existing =>
    let new_id := gen i
    if JValue.str new_id ∈ existing then generate_unique_uuid gen fuel (i + 1) existing
    else some (new_id, i + 1, insertId existing (.str new_id))

/-- The mutable state of the fix loop: the (shared, mutated in place)
question list, the running `all_ids` set, the position of the token
stream, and the replacement log. -/
structure FixState where
  questions : List JValue
  allIds : List JValue
  genIdx : Nat
  log : List ((Nat × Option Nat) × String)
deriving DecidableEq

/-- `entity["id"] = new_id` for a question or answer dict. -/
def setIdField (q : JValue) (v : String) : JValue :=
  match q with
  | .obj fs => .obj (setField fs "id" (.str v))
  | q => q

/-- `q["possibleAnswers"][ai]["id"] = new_id` inside one question dict.
The recorded positions always resolve (they were produced by the scan),
so the fall-through branches are inert. -/
def setAnsId (ai : Nat) (v : String) (q : JValue) : JValue :=
  match q with
  | .obj fs =>
    match lookupF fs "possibleAnswers" with
    | some (.arr xs) =>
      .obj (setField fs "possibleAnswers" (.arr (updateAt xs ai (fun a => setIdField a v))))
    | _ => q
  | q => q

/-- One replacement write: `questions[qi]["id"] = new_id` for a question
position, `questions[qi]["possibleAnswers"][ai]["id"] = new_id` for an
answer position. -/
def applyWrite (questions : List JValue) (pos : Nat × Option Nat) (v : String) : List JValue :=
  match pos with
  | (qi, none) => updateAt questions qi (fun q => setIdField q v)
  | (qi, some ai) => updateAt questions qi (setAnsId ai v)

/-- All replacement writes of one fix run, applied in order. -/
def applyWrites (questions : List JValue) (ws : List ((Nat × Option Nat) × String)) : List JValue :=
  ws.foldl (fun qs w => applyWrite qs w.1 w.2) questions

/-- The positions rewritten by fix mode, in processing order: for every
duplicate group (question groups first, then answer groups, groups in
index order) every occurrence after the first, in occurrence order.  The
`where` strings of the source are parsed back to exactly these indices. -/
def fixPositions (st : ScanState) : List (Nat × Option Nat) :=
  (findDuplicates st.qidOcc).flatMap (fun e => (e.2.drop 1).map (fun qi => (qi, none)))
    ++ (findDuplicates st.ansOcc).flatMap
        (fun e => (e.2.drop 1).map (fun p => (p.1, some p.2)))

/-- The fix loop of `main` (lines 129-151): for each position generate a
fresh id against the running set and write it into the document,
appending to the replacement log. -/
def runFixLoop (gen : Nat → String) (fuel : Nat) :
    FixState → List (Nat × Option Nat) → Option FixState
  | st, [] => some st
  | st, pos :: rest =>
    match generate_unique_uuid gen fuel st.genIdx st.allIds with
    | none => none
    | some (newId, i2, ids2) =>
      runFixLoop gen fuel
        { questions := applyWrite st.questions pos newId, allIds := ids2,
          genIdx := i2, log := st.log ++ [(pos, newId)] } rest

/-- `data.get("questions", [])`. -/
def questionsField (fields : List (String × JValue)) : JValue :=
  match lookupF fields "questions" with
  | some v => v
  | none => .arr []

/-- The document as serialized at the end of a run.  The scripts mutate
the question list in place, so the written document carries the updated
list exactly when the `questions` key was present (when it was absent the
loop ran over a fresh default list that is not part of the document). -/
def writeBack (fields : List (String × JValue)) (qs : List JValue) : JValue :=
  match lookupF fields "questions" with
  | some _ => .obj (setField fields "questions" (.arr qs))
  | none => .obj fields

/-- Observable outcome of one check_ids run: process exit code, the final
question list, the document as written (or left), the number of duplicate
groups reported across both classes, the replacement log, and whether the
output file was written. -/
structure CheckOutcome where
  exitCode : Nat
  questionsOut : List JValue
  doc : JValue
  dupGroups : Nat
  log : List ((Nat × Option Nat) × String)
  wrote : Bool
deriving DecidableEq

/-- `main` of check_ids.py after a successful JSON load, for detection
mode (`fix = false`) and fix mode (`fix = true`).  File writing and
backups are external and assumed to succeed; `.ok none` means the run
never terminated (the resample loop exhausted every fuel budget). -/
def checkIdsMain (fix : Bool) (gen : Nat → String) (fuel : Nat) (doc : JValue) :
    Except PyError (Option CheckOutcome) :=
  match doc with
  | .obj fields =>
    match questionsField fields with
    | .arr questions =>
      (scanQuestions questions).map (fun st =>
        let dupGroups :=
          (findDuplicates st.qidOcc).length + (findDuplicates st.ansOcc).length
        if fix then
          match runFixLoop gen fuel ⟨questions, st.allIds, 0, []⟩ (fixPositions st) with
          | some r =>
            some ⟨0, r.questions, writeBack fields r.questions, dupGroups, r.log, true⟩
          | none => none
        else
          some ⟨if 0 < dupGroups then 1 else 0, questions, .obj fields, dupGroups, [], false⟩)
    | _ => .ok (some ⟨2, [], .obj fields, 0, [], false⟩)
  | _ => .error .attributeError

/- ------------------------------------------------------------------
The sort_ans.py pipeline around the sorter
------------------------------------------------------------------ -/

def isObj : JValue → Bool
  | .obj _ => true
  | _ => false

/-- Key order for `json.dumps(..., sort_keys=True)`. -/
def fieldLe (a b : String × JValue) : Prop := strLt b.1 a.1 = false

instance : DecidableRel fieldLe :=
  fun a b => inferInstanceAs (Decidable (strLt b.1 a.1 = false))

mutual
/-- Canonical form of a value under `json.dumps(..., sort_keys=True)`:
object fields sorted by key, recursively.  Two values have the same dump
string exactly when their canonical forms agree. -/
def canon : JValue → JValue
  | .null => .null
  | .bool b => .bool b
  | .num n => .num n
  | .str s => .str s
  | .arr xs => .arr (canonList xs)
  | .obj fs => .obj (List.insertionSort fieldLe (canonFields fs))

def canonList : List JValue → List JValue
  | [] => []
  | x :: xs => canon x :: canonList xs

def canonFields : List (String × JValue) → List (String × JValue)
  | [] => []
  | (k, v) :: fs => (k, canon v) :: canonFields fs
end

/-- Observable outcome of one sort_ans run. -/
structure SortOutcome where
  exitCode : Nat
  doc : JValue
  changed : Nat
  total : Nat
deriving DecidableEq

/-- The per-question body of the sort loop (lines 63-84 of sort_ans.py):
a non-dict question raises, a non-list `possibleAnswers` is skipped, a
list is stably sorted (computing every sort key first raises
AttributeError when some element is not a dict, before any reordering).
Returns the updated question, whether it counted toward `total`, and
whether its serialized order changed. -/
def sortQuestion (key : String) (desc : Bool) (q : JValue) :
    Except PyError (JValue × Bool × Bool) :=
  match q with
  | .obj fs =>
    match lookupF fs "possibleAnswers" with
    | some (.arr items) =>
      if items.all isObj then
        .ok (.obj (setField fs "possibleAnswers" (.arr (sortAnswers key desc items))), true,
          decide (canonList items ≠ canonList (sortAnswers key desc items)))
      else .error .attributeError
    | _ => .ok (q, false, false)
  | _ => .error .attributeError

/-- The sort loop over all questions, returning the updated list and the
`total` and `changed` counters. -/
def sortLoop (key : String) (desc : Bool) : List JValue → Except PyError (List JValue × Nat × Nat)
  | [] => .ok ([], 0, 0)
  | q :: qs => do
    let r ← sortQuestion key desc q
    let rest ← sortLoop key desc qs
    .ok (r.1 :: rest.1, (if r.2.1 then 1 else 0) + rest.2.1,
      (if r.2.2 then 1 else 0) + rest.2.2)

/-- `main` of sort_ans.py after a successful JSON load. -/
def sortAnsMain (key : String) (desc : Bool) (doc : JValue) : Except PyError SortOutcome :=
  match doc with
  | .obj fields =>
    match questionsField fields with
    | .arr questions =>
      (sortLoop key desc questions).map (fun r => ⟨0, writeBack fields r.1, r.2.2, r.2.1⟩)
    | _ => .ok ⟨2, .obj fields, 0, 0⟩
  | _ => .error .attributeError

/- ------------------------------------------------------------------
Denotational reading of the scan used to state the claims
------------------------------------------------------------------ -/

/-- The identifier an entity contributes to its index: the truthy value
of its `id` field. -/
def idOf (v : JValue) : Option JValue :=
  match v with
  | .obj fs =>
    match lookupF fs "id" with
    | some x => if truthy x then some x else none
    | none => none
  | _ => none

/-- The answer list a question contributes to the scan (empty when the
field is absent or falsy; also empty in the truthy non-list shapes, on
which the scan errors out before using it). -/
def answersOf (q : JValue) : List JValue :=
  match q with
  | .obj fs =>
    match paValue fs with
    | .arr xs => xs
    | _ => []
  | _ => []

/-- The question identifier stored at index `qi`. -/
def qidAt (questions : List JValue) (qi : Nat) : Option JValue :=
  match nth questions qi with
  | some q => idOf q
  | none => none

/-- The answer identifier stored at `(qi, ai)`. -/
def aidAt (questions : List JValue) (qi ai : Nat) : Option JValue :=
  match nth questions qi with
  | some q =>
    match nth (answersOf q) ai with
    | some a => idOf a
    | none => none
  | none => none

/-- The identifier stored at a fix position. -/
def idAtP (questions : List JValue) : Nat × Option Nat → Option JValue
  | (qi, none) => qidAt questions qi
  | (qi, some ai) => aidAt questions qi ai

/-- The ordered list of question indices (counting from `n`) holding the
identifier value `k`. -/
def qPositionsFrom (k : JValue) : Nat → List JValue → List Nat
  | _, [] => []
  | n, q :: qs => (if idOf q = some k then [n] else []) ++ qPositionsFrom k (n + 1) qs

def qPositions (questions : List JValue) (k : JValue) : List Nat :=
  qPositionsFrom k 0 questions

/-- The ordered answer positions within one question's answer list
(answer index counting from `ai`) holding the value `k`. -/
def aRowFrom (k : JValue) (qi : Nat) : Nat → List JValue → List (Nat × Nat)
  | _, [] => []
  | ai, a :: rest =>
    (if idOf a = some k then [(qi, ai)] else []) ++ aRowFrom k qi (ai + 1) rest

/-- The ordered list of answer positions (question index counting from
`n`) holding the identifier value `k`. -/
def aPositionsFrom (k : JValue) : Nat → List JValue → List (Nat × Nat)
  | _, [] => []
  | n, q :: qs => aRowFrom k n 0 (answersOf q) ++ aPositionsFrom k (n + 1) qs

def aPositions (questions : List JValue) (k : JValue) : List (Nat × Nat) :=
  aPositionsFrom k 0 questions

/-- The shapes on which the id scan completes without a runtime error:
the question is a dict and its possible-answers value collapses to a list
of dicts. -/
def qOk (q : JValue) : Bool :=
  match q with
  | .obj fs =>
    match paValue fs with
    | .arr xs => xs.all isObj
    | _ => false
  | _ => false

def docOk (questions : List JValue) : Bool := questions.all qOk

/-- The identifier of the `ai`-th element of an answer list. -/
def ansIdAt (answers : List JValue) (ai : Nat) : Option JValue :=
  match nth answers ai with
  | some a => idOf a
  | none => none

/-- Total mirror of the inner answer scan: on documents where the scan
does not raise (`qOk`), `scanAnswersM` computes exactly this. -/
def scanAnswersT (qi : Nat) : Nat → ScanState → List JValue → ScanState
  | _, st, [] => st
  | ai, st, a :: rest => scanAnswersT qi (ai + 1) (ansStep st qi ai (getOpt a "id")) rest

/-- Total mirror of one question's scan step. -/
def scanStepT (st : ScanState) (qi : Nat) (q : JValue) : ScanState :=
  scanAnswersT qi 0 (qidStep st qi (getOpt q "id")) (answersOf q)

/-- Total mirror of the whole scan loop. -/
def scanFromT (n : Nat) (st : ScanState) : List JValue → ScanState
  | [] => st
  | q :: qs => scanFromT (n + 1) (scanStepT st n q) qs

/-- A fix position that resolves to an actual identifier slot: the
question exists and is a dict, and for an answer position the answer
element exists and is a dict. -/
def writableP (qs : List JValue) : Nat × Option Nat → Prop
  | (qi, none) => ∃ q, nth qs qi = some q ∧ isObj q = true
  | (qi, some ai) =>
    ∃ q a, nth qs qi = some q ∧ nth (answersOf q) ai = some a ∧ isObj a = true

/- ------------------------------------------------------------------
Concrete documents used to instantiate the theorems
------------------------------------------------------------------ -/

/-- Total number of occurrences across all duplicate groups of both
classes. -/
def dupOccTotal (st : ScanState) : Nat :=
  ((findDuplicates st.qidOcc).map (fun e => e.2.length)).sum +
    ((findDuplicates st.ansOcc).map (fun e => e.2.length)).sum

/-- Number of duplicate groups across both classes. -/
def dupGroupCount (st : ScanState) : Nat :=
  (findDuplicates st.qidOcc).length + (findDuplicates st.ansOcc).length

/-- Two questions sharing the identifier "a". -/
def wQs : List JValue := [.obj [("id", .str "a")], .obj [("id", .str "a")]]

/-- A document whose two questions share the identifier "a". -/
def wDupDoc : JValue := .obj [("questions", .arr wQs)]

/-- The scan state of `wQs`. -/
def wScanSt : ScanState := scanFromT 0 ⟨[], [], []⟩ wQs

/-- A deterministic stand-in for the uuid4 token stream. -/
def wGen : Nat → String := fun n => "g" ++ toString n

/-- The fix-loop result on `wQs` with the deterministic token stream. -/
def wFixRun : FixState :=
  match runFixLoop wGen 3 ⟨wQs, wScanSt.allIds, 0, []⟩ (fixPositions wScanSt) with
  | some r => r
  | none => ⟨[], [], 0, []⟩

/-- The outcome of running fix mode on `wDupDoc` with `wGen`. -/
def wFixOut : CheckOutcome :=
  ⟨0, [.obj [("id", .str "a")], .obj [("id", .str "g0")]],
   .obj [("questions", .arr [.obj [("id", .str "a")], .obj [("id", .str "g0")]])],
   1, [((1, none), "g0")], true⟩

/-- The outcome of running detection mode on `wDupDoc`. -/
def wDetOut : CheckOutcome :=
  ⟨1, [.obj [("id", .str "a")], .obj [("id", .str "a")]], wDupDoc, 1, [], false⟩

/- ------------------------------------------------------------------
Order facts about the sort keys
------------------------------------------------------------------ -/

theorem charListLt_asymm :
    ∀ cs ds, charListLt cs ds = true → charListLt ds cs = false
  | [], [], h => by simp [charListLt] at h
  | [], _ :: _, _ => by simp [charListLt]
  | _ :: _, [], h => by simp [charListLt] at h
  | c :: cs, d :: ds, h => by
    simp only [charListLt] at h ⊢
    split_ifs at h ⊢ <;> first | rfl | omega | exact charListLt_asymm cs ds h

theorem charListLt_trans :
    ∀ cs ds es, charListLt cs ds = true → charListLt ds es = true →
      charListLt cs es = true
  | [], [], _, h1, _ => by simp [charListLt] at h1
  | [], _ :: _, [], _, h2 => by simp [charListLt] at h2
  | [], _ :: _, _ :: _, _, _ => by simp [charListLt]
  | _ :: _, [], _, h1, _ => by simp [charListLt] at h1
  | _ :: _, _ :: _, [], _, h2 => by simp [charListLt] at h2
  | c :: cs, d :: ds, e :: es, h1, h2 => by
    simp only [charListLt] at h1 h2 ⊢
    split_ifs at h1 h2 ⊢ <;>
      first | rfl | omega | exact charListLt_trans cs ds es h1 h2

theorem charListLt_antisymm :
    ∀ cs ds, charListLt cs ds = false → charListLt ds cs = false → cs = ds
  | [], [], _, _ => rfl
  | [], _ :: _, h1, _ => by simp [charListLt] at h1
  | _ :: _, [], _, h2 => by simp [charListLt] at h2
  | c :: cs, d :: ds, h1, h2 => by
    simp only [charListLt] at h1 h2
    by_cases hcd : c.toNat < d.toNat
    · simp [hcd] at h1
    · by_cases hdc : d.toNat < c.toNat
      · simp [hdc] at h2
      · simp only [hcd, hdc, if_false] at h1 h2
        have hnat : c.toNat = d.toNat := by omega
        have hc : c = d := Char.eq_of_val_eq (UInt32.ext hnat)
        rw [hc, charListLt_antisymm cs ds h1 h2]

theorem strLt_asymm (a b : String) (h : strLt a b = true) : strLt b a = false :=
  charListLt_asymm _ _ h

theorem strLt_antisymm :
    ∀ a b : String, strLt a b = false → strLt b a = false → a = b
  | ⟨da⟩, ⟨db⟩, h1, h2 => congrArg String.mk (charListLt_antisymm da db h1 h2)

theorem keyLt_asymm (x y : Bool × String) (h : keyLt x y = true) : keyLt y x = false := by
  obtain ⟨m1, s1⟩ := x
  obtain ⟨m2, s2⟩ := y
  simp only [keyLt, Bool.or_eq_true, Bool.and_eq_true] at h
  cases m1 <;> cases m2 <;> simp_all [keyLt, strLt_asymm]

theorem keyLt_trans (x y z : Bool × String) (h1 : keyLt x y = true)
    (h2 : keyLt y z = true) : keyLt x z = true := by
  obtain ⟨m1, s1⟩ := x
  obtain ⟨m2, s2⟩ := y
  obtain ⟨m3, s3⟩ := z
  cases m1 <;> cases m2 <;> cases m3 <;>
    simp_all [keyLt] <;> exact charListLt_trans _ _ _ h1 h2

theorem keyLt_antisymm (x y : Bool × String) (h1 : keyLt x y = false)
    (h2 : keyLt y x = false) : x = y := by
  obtain ⟨m1, s1⟩ := x
  obtain ⟨m2, s2⟩ := y
  cases m1 <;> cases m2 <;> simp_all [keyLt] <;>
    exact strLt_antisymm _ _ h1 h2

theorem keyLe_refl (x : Bool × String) : keyLe x x = true := by
  have : keyLt x x = false := by
    cases h : keyLt x x
    · rfl
    · have := keyLt_asymm x x h; simp_all
  simp [keyLe, this]

theorem keyLe_total (x y : Bool × String) :
    keyLe x y = true ∨ keyLe y x = true := by
  by_cases h : keyLt y x = true
  · right; simp [keyLe, keyLt_asymm _ _ h]
  · left; simp only [keyLe]; simp only [Bool.not_eq_true] at h; simp [h]

theorem keyLe_trans (x y z : Bool × String) (h1 : keyLe x y = true)
    (h2 : keyLe y z = true) : keyLe x z = true := by
  simp only [keyLe, Bool.not_eq_true'] at h1 h2 ⊢
  by_contra hzx
  have h : keyLt z x = true := by simp_all
  by_cases hxy : keyLt x y = true
  · have := keyLt_trans z x y h hxy
    simp_all
  · have hxy' : keyLt x y = false := by simp_all
    have hx : x = y := keyLt_antisymm x y hxy' h1
    subst hx
    simp_all

instance ansLeTotal (key : String) : IsTotal JValue (ansLe key) :=
  ⟨fun a b => by
    rcases keyLe_total (sort_key key a) (sort_key key b) with h | h
    · exact Or.inl h
    · exact Or.inr h⟩

instance ansLeTrans (key : String) : IsTrans JValue (ansLe key) :=
  ⟨fun _ _ _ h1 h2 => keyLe_trans _ _ _ h1 h2⟩

instance ansGeTotal (key : String) : IsTotal JValue (ansGe key) :=
  ⟨fun a b => by
    rcases keyLe_total (sort_key key a) (sort_key key b) with h | h
    · exact Or.inr h
    · exact Or.inl h⟩

instance ansGeTrans (key : String) : IsTrans JValue (ansGe key) :=
  ⟨fun _ _ _ h1 h2 => keyLe_trans _ _ _ h2 h1⟩

/- ------------------------------------------------------------------
Stability of insertion sort: filtering by any class of pairwise-related
elements commutes with sorting.
------------------------------------------------------------------ -/

theorem filter_orderedInsert_class (r : α → α → Prop) [DecidableRel r]
    (p : α → Bool) (hp : ∀ a b, p a = true → p b = true → r a b)
    (a : α) (l : List α) :
    (l.orderedInsert r a).filter p =
      if p a then a :: l.filter p else l.filter p := by
  have hsplit : l.filter p =
      (l.takeWhile fun b => decide ¬r a b).filter p ++
        (l.dropWhile fun b => decide ¬r a b).filter p := by
    rw [← List.filter_append, List.takeWhile_append_dropWhile]
  rw [List.orderedInsert_eq_take_drop, List.filter_append, List.filter_cons]
  cases ha : p a
  · rw [if_neg (by simp), if_neg (by simp), ← List.filter_append,
      List.takeWhile_append_dropWhile]
  · have htake : (l.takeWhile fun b => decide ¬r a b).filter p = [] := by
      refine List.filter_eq_nil_iff.mpr (fun b hb => ?_)
      have h0 := @List.mem_takeWhile_imp _ (fun c => decide ¬(r a c)) l b hb
      have hnr : ¬ r a b := of_decide_eq_true h0
      intro hpb
      exact hnr (hp a b ha hpb)
    rw [if_pos rfl, if_pos rfl]
    simp only [htake, List.nil_append]
    rw [hsplit, htake, List.nil_append]

theorem filter_insertionSort_class (r : α → α → Prop) [DecidableRel r]
    (p : α → Bool) (hp : ∀ a b, p a = true → p b = true → r a b) :
    ∀ l : List α, (List.insertionSort r l).filter p = l.filter p
  | [] => rfl
  | a :: l => by
    rw [List.insertionSort, filter_orderedInsert_class r p hp,
      filter_insertionSort_class r p hp l, List.filter_cons]

/-- In a key comparison, anything that is at least as large as a missing
key (first component `true`) is itself missing. -/
theorem keyLe_fst_mono (x y : Bool × String) (h : keyLe x y = true)
    (hx : x.1 = true) : y.1 = true := by
  obtain ⟨m1, s1⟩ := x
  obtain ⟨m2, s2⟩ := y
  cases m1 <;> cases m2 <;> simp_all [keyLe, keyLt]

/-- In a list sorted by the answer preorder, once a missing-key item
appears every later item also has a missing key. -/
theorem sorted_missing_suffix (key : String) :
    ∀ l : List JValue, l.Sorted (ansLe key) →
      (l.dropWhile (fun a => !(sort_key key a).1)).all
        (fun a => (sort_key key a).1) = true
  | [], _ => rfl
  | a :: l, h => by
    rw [List.sorted_cons] at h
    rw [List.dropWhile_cons]
    cases hm : (sort_key key a).1
    · simp only [hm, Bool.not_false, if_true]
      exact sorted_missing_suffix key l h.2
    · simp only [hm, Bool.not_true, Bool.false_eq_true, if_false]
      apply List.all_eq_true.mpr
      intro x hx
      rcases List.mem_cons.mp hx with rfl | hx
      · exact hm
      · exact keyLe_fst_mono _ _ (h.1 x hx) hm

/- ------------------------------------------------------------------
Claim theorems about the answer sorter
------------------------------------------------------------------ -/

/-- Claim C1: the claim states that with the reverse (descending) flag the
missing-key items still sort last, with the worked example yielding
cherry, banana, Apple, "", null.  The code instead reverses the whole
sort key, including the missing flag, so missing items come FIRST when
descending: the example yields "", null, cherry, banana, Apple.  This
theorem evaluates the embedded sorter at the claim's own example input
and shows the output differs from the claimed one. -/
theorem sort_desc_puts_missing_first :
    sortAnswers "answer" true exAnswers =
      [.obj [("answer", .str "")], .obj [("answer", .null)],
       .obj [("answer", .str "cherry")], .obj [("answer", .str "banana")],
       .obj [("answer", .str "Apple")]]
    ∧ sortAnswers "answer" true exAnswers ≠
      [.obj [("answer", .str "cherry")], .obj [("answer", .str "banana")],
       .obj [("answer", .str "Apple")], .obj [("answer", .str "")],
       .obj [("answer", .null)]] := by
  constructor <;> decide

/-- Claim C9: the default ascending sort is a permutation of the input,
sorted by the (missing, casefolded value) key — hence case-insensitive
with all missing-key items after all present ones — it is stable (the
subsequence of items with any fixed key is unchanged), and the worked
example ["banana", "", "Apple", null, "cherry"] sorts to
["Apple", "banana", "cherry", "", null]. -/
theorem sort_asc_spec :
    (∀ key items, (sortAnswers key false items).Perm items)
  ∧ (∀ key items, (sortAnswers key false items).Sorted (ansLe key))
  ∧ (∀ key items κ,
      ((sortAnswers key false items).filter (fun a => decide (sort_key key a = κ)))
        = items.filter (fun a => decide (sort_key key a = κ)))
  ∧ (∀ key items,
      ((sortAnswers key false items).dropWhile (fun a => !(sort_key key a).1)).all
        (fun a => (sort_key key a).1) = true)
  ∧ sortAnswers "answer" false exAnswers =
      [.obj [("answer", .str "Apple")], .obj [("answer", .str "banana")],
       .obj [("answer", .str "cherry")], .obj [("answer", .str "")],
       .obj [("answer", .null)]] := by
  refine ⟨?_, ?_, ?_, ?_, by decide⟩
  · intro key items
    exact List.perm_insertionSort (ansLe key) items
  · intro key items
    exact List.sorted_insertionSort (ansLe key) items
  · intro key items κ
    have hp : ∀ a b : JValue, decide (sort_key key a = κ) = true →
        decide (sort_key key b = κ) = true → ansLe key a b := by
      intro a b ha hb
      have ha' := of_decide_eq_true ha
      have hb' := of_decide_eq_true hb
      show keyLe (sort_key key a) (sort_key key b) = true
      rw [ha', hb']
      exact keyLe_refl κ
    exact filter_insertionSort_class (ansLe key) _ hp items
  · intro key items
    exact sorted_missing_suffix key _ (List.sorted_insertionSort (ansLe key) items)

/- ------------------------------------------------------------------
Claim theorems about the identifier pipeline: exit codes and tolerated
shapes
------------------------------------------------------------------ -/

/-- Claim C5: the claim states the resample loop terminates within some
upper retry bound.  The source loop is `while True` with no retry cap:
with a token stream whose candidates always collide with the existing
identifier set, the generator fails to return within every attempt
budget, so no upper bound on the number of resample attempts exists. -/
theorem resample_loop_unbounded :
    ∀ fuel i, generate_unique_uuid (fun _ => "c") fuel i [JValue.str "c"] = none
  | 0, _ => rfl
  | fuel + 1, i => by
    have ih := resample_loop_unbounded fuel (i + 1)
    simp only [generate_unique_uuid]
    rw [if_pos (by decide)]
    exact ih

/-- Claim C6 counterexample: a document with no `questions` key at all is
not a format error for either pipeline: both treat it as an empty
question list and exit 0, not 2, contradicting the claim's "including a
document with no questions key at all". -/
theorem missing_questions_key_not_fatal :
    checkIdsMain false (fun _ => "") 0 (.obj [("title", .str "t")]) =
      .ok (some ⟨0, [], .obj [("title", .str "t")], 0, [], false⟩)
    ∧ sortAnsMain "answer" false (.obj [("title", .str "t")]) =
      .ok ⟨0, .obj [("title", .str "t")], 0, 0⟩ := by
  constructor <;> decide

/-- Claim C6 (amended): when the `questions` key is present but its value
is not a list, both pipelines abort with the fatal format-error exit code
2 before mutating the document; a document without the key is instead
treated as having an empty question list (detection exits 0). -/
theorem format_error_exit_codes :
    (∀ fields v gen fuel fix, lookupF fields "questions" = some v →
      (∀ xs, v ≠ .arr xs) →
      checkIdsMain fix gen fuel (.obj fields) =
        .ok (some ⟨2, [], .obj fields, 0, [], false⟩))
  ∧ (∀ fields key desc v, lookupF fields "questions" = some v →
      (∀ xs, v ≠ .arr xs) →
      sortAnsMain key desc (.obj fields) = .ok ⟨2, .obj fields, 0, 0⟩)
  ∧ (∀ fields gen fuel, lookupF fields "questions" = none →
      checkIdsMain false gen fuel (.obj fields) =
        .ok (some ⟨0, [], .obj fields, 0, [], false⟩)) := by
  refine ⟨?_, ?_, ?_⟩
  · intro fields v gen fuel fix h hv
    cases v <;> simp_all [checkIdsMain, questionsField]
  · intro fields key desc v h hv
    cases v <;> simp_all [sortAnsMain, questionsField]
  · intro fields gen fuel h
    simp [checkIdsMain, questionsField, h, scanQuestions, scanFrom, findDuplicates,
      Except.map]

/-- Witness for the amended C6 at a concrete document whose `questions`
key holds a string. -/
theorem format_error_exit_codes_w :
    checkIdsMain false (fun _ => "") 0 (.obj [("questions", .str "x")]) =
      .ok (some ⟨2, [], .obj [("questions", .str "x")], 0, [], false⟩)
    ∧ sortAnsMain "answer" false (.obj [("questions", .str "x")]) =
      .ok ⟨2, .obj [("questions", .str "x")], 0, 0⟩ :=
  ⟨format_error_exit_codes.1 [("questions", .str "x")] (.str "x") (fun _ => "") 0 false
      rfl (fun _ h => nomatch h),
   format_error_exit_codes.2.1 [("questions", .str "x")] "answer" false (.str "x")
      rfl (fun _ h => nomatch h)⟩

/-- Claim C7 counterexample: a truthy non-list `possibleAnswers` (here
the string "abc") is NOT treated as "no answers" by the identifier index
builder: the id pipeline aborts with a runtime AttributeError, while the
sorter skips the question without error. -/
theorem truthy_nonlist_answers_crash_scan :
    checkIdsMain false (fun _ => "") 0
      (.obj [("questions", .arr [.obj [("id", .str "q"), ("possibleAnswers", .str "abc")]])]) =
      .error .attributeError
    ∧ sortAnsMain "answer" false
      (.obj [("questions", .arr [.obj [("id", .str "q"), ("possibleAnswers", .str "abc")]])]) =
      .ok ⟨0, .obj [("questions", .arr [.obj [("id", .str "q"), ("possibleAnswers", .str "abc")]])],
        0, 0⟩ := by
  constructor <;> decide

/-- Claim C7 (amended): a `possibleAnswers` field that is absent, null
or otherwise falsy (`False`, `0`, `""`, `[]`, `{}`) is processed by the
identifier scan as "no answers" without error (only the question id is
recorded), and the answer sorter skips every non-list value of the field
without error; truthy non-list values crash the identifier scan (see the
counterexample). -/
theorem missing_answers_tolerated :
    (∀ st qi fields,
      (∀ v, lookupF fields "possibleAnswers" = some v → truthy v = false) →
      scanQuestion st qi (.obj fields) = .ok (qidStep st qi (lookupF fields "id")))
  ∧ (∀ key desc fields v, lookupF fields "possibleAnswers" = some v →
      (∀ xs, v ≠ .arr xs) →
      sortQuestion key desc (.obj fields) = .ok (.obj fields, false, false)) := by
  constructor
  · intro st qi fields h
    have hpa : paValue fields = JValue.arr [] := by
      rw [paValue]
      cases hl : lookupF fields "possibleAnswers" with
      | none => rfl
      | some v => simp [h v hl]
    simp only [scanQuestion, getAttr, hpa, iterAnswers]
    rfl
  · intro key desc fields v h hv
    cases v <;> simp_all [sortQuestion]

/-- Witness for the amended C7: a question whose `possibleAnswers` is the
falsy value `False` is scanned without error as "no answers", and a
question whose `possibleAnswers` is the string "x" is skipped by the
sorter. -/
theorem missing_answers_tolerated_w :
    scanQuestion ⟨[], [], []⟩ 0 (.obj [("id", .str "a"), ("possibleAnswers", .bool false)]) =
      .ok (qidStep ⟨[], [], []⟩ 0
        (lookupF [("id", .str "a"), ("possibleAnswers", .bool false)] "id"))
    ∧ sortQuestion "answer" false (.obj [("possibleAnswers", .str "x")]) =
      .ok (.obj [("possibleAnswers", .str "x")], false, false) :=
  ⟨missing_answers_tolerated.1 ⟨[], [], []⟩ 0
      [("id", .str "a"), ("possibleAnswers", .bool false)] (by decide),
   missing_answers_tolerated.2 "answer" false [("possibleAnswers", .str "x")] (.str "x")
      rfl (fun _ h => nomatch h)⟩

/-- Claim C10: in fix mode a terminating run that wrote its output exits
0 even when duplicates were found and repaired, and the exit code is
never 1; in detection mode the exit code is 1 exactly when at least one
duplicate group was found. -/
theorem fix_mode_exit_codes :
    ∀ gen fuel doc o,
      (checkIdsMain true gen fuel doc = .ok (some o) →
        (o.wrote = true → o.exitCode = 0) ∧ o.exitCode ≠ 1)
    ∧ (checkIdsMain false gen fuel doc = .ok (some o) →
        (o.exitCode = 1 ↔ 0 < o.dupGroups)) := by
  intro gen fuel doc o
  cases doc with
  | obj fields =>
    cases hq : questionsField fields with
    | arr questions =>
      cases hscan : scanQuestions questions with
      | error e =>
        constructor <;> intro h <;> simp [checkIdsMain, hq, hscan, Except.map] at h
      | ok st =>
        constructor
        · intro h
          simp only [checkIdsMain, hq, hscan, Except.map, if_true] at h
          cases hrun : runFixLoop gen fuel ⟨questions, st.allIds, 0, []⟩ (fixPositions st) with
          | none => rw [hrun] at h; cases h
          | some r =>
            rw [hrun] at h
            cases h
            refine ⟨fun _ => rfl, ?_⟩
            intro hc
            simp at hc
        · intro h
          simp only [checkIdsMain, hq, hscan, Except.map] at h
          cases h
          by_cases hd : 0 <
              (findDuplicates st.qidOcc).length + (findDuplicates st.ansOcc).length <;>
            simp [hd]
    | null =>
      constructor <;> intro h <;>
        · simp [checkIdsMain, hq] at h
          cases h
          first
          | exact ⟨fun hw => nomatch hw, fun hc => by simp at hc⟩
          | constructor <;> intro hx <;> simp_all
    | bool b =>
      constructor <;> intro h <;>
        · simp [checkIdsMain, hq] at h
          cases h
          first
          | exact ⟨fun hw => nomatch hw, fun hc => by simp at hc⟩
          | constructor <;> intro hx <;> simp_all
    | num n =>
      constructor <;> intro h <;>
        · simp [checkIdsMain, hq] at h
          cases h
          first
          | exact ⟨fun hw => nomatch hw, fun hc => by simp at hc⟩
          | constructor <;> intro hx <;> simp_all
    | str s =>
      constructor <;> intro h <;>
        · simp [checkIdsMain, hq] at h
          cases h
          first
          | exact ⟨fun hw => nomatch hw, fun hc => by simp at hc⟩
          | constructor <;> intro hx <;> simp_all
    | obj gs =>
      constructor <;> intro h <;>
        · simp [checkIdsMain, hq] at h
          cases h
          first
          | exact ⟨fun hw => nomatch hw, fun hc => by simp at hc⟩
          | constructor <;> intro hx <;> simp_all
  | null => constructor <;> intro h <;> simp [checkIdsMain] at h
  | bool b => constructor <;> intro h <;> simp [checkIdsMain] at h
  | num n => constructor <;> intro h <;> simp [checkIdsMain] at h
  | str s => constructor <;> intro h <;> simp [checkIdsMain] at h
  | arr xs => constructor <;> intro h <;> simp [checkIdsMain] at h

/-- Witness for C10 on the concrete duplicate document: the fix run exits
0 and the detection run exits 1 with one duplicate group. -/
theorem fix_mode_exit_codes_w :
    wFixOut.exitCode = 0 ∧ (wDetOut.exitCode = 1 ↔ 0 < wDetOut.dupGroups) :=
  ⟨((fix_mode_exit_codes wGen 3 wDupDoc wFixOut).1 (by decide)).1 rfl,
   (fix_mode_exit_codes wGen 3 wDupDoc wDetOut).2 (by decide)⟩

/- ------------------------------------------------------------------
Basic lemmas about the list and field primitives
------------------------------------------------------------------ -/

theorem lookupF_setField_same (k : String) (v : JValue) :
    ∀ fs : List (String × JValue), lookupF (setField fs k v) k = some v
  | [] => by simp [setField, lookupF]
  | (k0, v0) :: rest => by
    by_cases h : k0 = k <;>
      simp [setField, lookupF, h, lookupF_setField_same k v rest]

theorem lookupF_setField_ne (k k' : String) (v : JValue) (h : k' ≠ k) :
    ∀ fs : List (String × JValue), lookupF (setField fs k v) k' = lookupF fs k'
  | [] => by simp [setField, lookupF, Ne.symm h]
  | (k0, v0) :: rest => by
    by_cases h0 : k0 = k
    · subst h0
      simp [setField, lookupF, Ne.symm h]
    · simp [setField, lookupF, h0, lookupF_setField_ne k k' v h rest]

theorem nth_updateAt_ne : ∀ (l : List α) (i j : Nat) (f : α → α), i ≠ j →
    nth (updateAt l i f) j = nth l j
  | [], _, _, _, _ => rfl
  | _ :: _, 0, 0, _, h => absurd rfl h
  | _ :: _, 0, _ + 1, _, _ => rfl
  | _ :: _, _ + 1, 0, _, _ => rfl
  | _ :: xs, i + 1, j + 1, f, h =>
    nth_updateAt_ne xs i j f (fun hh => h (by rw [hh]))

theorem nth_updateAt_same : ∀ (l : List α) (i : Nat) (f : α → α),
    nth (updateAt l i f) i = (nth l i).map f
  | [], _, _ => rfl
  | _ :: _, 0, _ => rfl
  | _ :: xs, i + 1, f => nth_updateAt_same xs i f

theorem updateAt_eq_nil_iff (l : List α) (i : Nat) (f : α → α) :
    updateAt l i f = [] ↔ l = [] := by
  cases l <;> cases i <;> simp [updateAt]

theorem all_updateAt (p : α → Bool) (f : α → α) (hf : ∀ a, p (f a) = p a) :
    ∀ (l : List α) (i : Nat), (updateAt l i f).all p = l.all p
  | [], _ => rfl
  | x :: xs, 0 => by simp [updateAt, List.all_cons, hf]
  | x :: xs, i + 1 => by simp [updateAt, List.all_cons, all_updateAt p f hf xs i]

theorem occList_addOcc (k k' : JValue) (w : π) :
    ∀ m : List (JValue × List π),
      occList (addOcc m k w) k' =
        if k' = k then occList m k' ++ [w] else occList m k'
  | [] => by
    by_cases h : k' = k
    · subst h; simp [addOcc, occList]
    · simp [addOcc, occList, h, Ne.symm h]
  | (k0, ws) :: rest => by
    by_cases h0 : k0 = k
    · subst h0
      by_cases h : k' = k0
      · subst h; simp [addOcc, occList]
      · simp [addOcc, occList, h, Ne.symm h]
    · by_cases h : k0 = k'
      · subst h
        simp [addOcc, occList, h0, Ne.symm h0]
      · simp [addOcc, occList, h0, h, occList_addOcc k k' w rest]

theorem occList_of_mem :
    ∀ (m : List (JValue × List π)), (m.map Prod.fst).Nodup →
      ∀ k ws, (k, ws) ∈ m → occList m k = ws
  | [], _, k, ws, hm => absurd hm (List.not_mem_nil _)
  | (k0, ws0) :: rest, hnd, k, ws, hm => by
    rw [List.map_cons, List.nodup_cons] at hnd
    rcases List.mem_cons.mp hm with he | hm'
    · have h1 : k = k0 := congrArg Prod.fst he
      have h2 : ws = ws0 := congrArg Prod.snd he
      subst h1
      simp [occList, h2]
    · have hk : k ∈ rest.map Prod.fst := List.mem_map.mpr ⟨(k, ws), hm', rfl⟩
      have hne : k0 ≠ k := fun hc => hnd.1 (by rw [hc]; exact hk)
      have hrest := occList_of_mem rest hnd.2 k ws hm'
      simp [occList, hne, hrest]

theorem mem_of_occList_ne :
    ∀ (m : List (JValue × List π)) k, occList m k ≠ [] → (k, occList m k) ∈ m
  | [], k, h => absurd rfl h
  | (k0, ws0) :: rest, k, h => by
    by_cases h0 : k0 = k
    · subst h0
      simp only [occList, if_pos rfl] at h ⊢
      exact List.mem_cons_self _ _
    · simp only [occList, if_neg h0] at h ⊢
      exact List.mem_cons_of_mem _ (mem_of_occList_ne rest k h)

theorem map_fst_addOcc (k : JValue) (w : π) :
    ∀ m : List (JValue × List π),
      (addOcc m k w).map Prod.fst =
        if k ∈ m.map Prod.fst then m.map Prod.fst else m.map Prod.fst ++ [k]
  | [] => by simp [addOcc]
  | (k0, ws0) :: rest => by
    by_cases h0 : k0 = k
    · subst h0
      simp [addOcc]
    · have hne : ¬ k = k0 := fun hc => h0 hc.symm
      by_cases hk : k ∈ rest.map Prod.fst <;>
        simp [addOcc, h0, hne, hk, map_fst_addOcc k w rest]

theorem nodup_map_fst_addOcc (k : JValue) (w : π) (m : List (JValue × List π))
    (h : (m.map Prod.fst).Nodup) : ((addOcc m k w).map Prod.fst).Nodup := by
  rw [map_fst_addOcc]
  by_cases hk : k ∈ m.map Prod.fst
  · simp [hk, h]
  · simp [hk, List.nodup_append, h]

theorem mem_findDuplicates (m : List (JValue × List π)) (e : JValue × List π) :
    e ∈ findDuplicates m ↔ e ∈ m ∧ 1 < e.2.length := by
  simp [findDuplicates, List.mem_filter]

/- ------------------------------------------------------------------
Lemmas about the position lists
------------------------------------------------------------------ -/

theorem qPositionsFrom_le (k : JValue) :
    ∀ (qs : List JValue) (n qi : Nat), qi ∈ qPositionsFrom k n qs → n ≤ qi
  | [], _, _, h => absurd h (List.not_mem_nil _)
  | q :: qs, n, qi, h => by
    simp only [qPositionsFrom, List.mem_append] at h
    rcases h with h | h
    · by_cases hq : idOf q = some k
      · simp [hq] at h
        omega
      · simp [hq] at h
    · have := qPositionsFrom_le k qs (n + 1) qi h
      omega

theorem mem_qPositionsFrom (k : JValue) :
    ∀ (qs : List JValue) (n qi : Nat),
      qi ∈ qPositionsFrom k n qs ↔ n ≤ qi ∧ qidAt qs (qi - n) = some k
  | [], n, qi => by simp [qPositionsFrom, qidAt, nth]
  | q :: qs, n, qi => by
    simp only [qPositionsFrom, List.mem_append]
    constructor
    · intro h
      rcases h with h | h
      · by_cases hq : idOf q = some k
        · simp [hq] at h
          subst h
          exact ⟨by omega, by simp [qidAt, nth, Nat.sub_self, hq]⟩
        · simp [hq] at h
      · obtain ⟨h1, h2⟩ := (mem_qPositionsFrom k qs (n + 1) qi).mp h
        refine ⟨by omega, ?_⟩
        have he : qi - n = (qi - (n + 1)) + 1 := by omega
        rw [he]
        simpa [qidAt, nth] using h2
    · rintro ⟨h1, h2⟩
      by_cases he : qi = n
      · subst he
        rw [Nat.sub_self] at h2
        simp only [qidAt, nth] at h2
        left
        simp [h2]
      · right
        refine (mem_qPositionsFrom k qs (n + 1) qi).mpr ⟨by omega, ?_⟩
        have hq : qi - n = (qi - (n + 1)) + 1 := by omega
        rw [hq] at h2
        simpa [qidAt, nth] using h2

theorem mem_qPositions (qs : List JValue) (k : JValue) (qi : Nat) :
    qi ∈ qPositions qs k ↔ qidAt qs qi = some k := by
  rw [qPositions, mem_qPositionsFrom]
  simp

theorem qPositionsFrom_nodup (k : JValue) :
    ∀ (qs : List JValue) (n : Nat), (qPositionsFrom k n qs).Nodup
  | [], _ => List.nodup_nil
  | q :: qs, n => by
    simp only [qPositionsFrom]
    by_cases hq : idOf q = some k
    · rw [if_pos hq]
      rw [List.singleton_append, List.nodup_cons]
      refine ⟨?_, qPositionsFrom_nodup k qs (n + 1)⟩
      intro hmem
      have := qPositionsFrom_le k qs (n + 1) n hmem
      omega
    · simp [hq, qPositionsFrom_nodup k qs (n + 1)]

theorem aRowFrom_le (k : JValue) (qi : Nat) :
    ∀ (answers : List JValue) (ai : Nat) (p : Nat × Nat),
      p ∈ aRowFrom k qi ai answers → p.1 = qi ∧ ai ≤ p.2
  | [], _, _, h => absurd h (List.not_mem_nil _)
  | a :: rest, ai, p, h => by
    simp only [aRowFrom, List.mem_append] at h
    rcases h with h | h
    · by_cases ha : idOf a = some k
      · simp [ha] at h
        subst h
        exact ⟨rfl, le_refl ai⟩
      · simp [ha] at h
    · have := aRowFrom_le k qi rest (ai + 1) p h
      omega

theorem mem_aRowFrom (k : JValue) (qi : Nat) :
    ∀ (answers : List JValue) (ai : Nat) (a b : Nat),
      (a, b) ∈ aRowFrom k qi ai answers ↔
        a = qi ∧ ai ≤ b ∧ ansIdAt answers (b - ai) = some k
  | [], ai, a, b => by simp [aRowFrom, ansIdAt, nth]
  | x :: rest, ai, a, b => by
    simp only [aRowFrom, List.mem_append]
    constructor
    · intro h
      rcases h with h | h
      · by_cases hx : idOf x = some k
        · simp [hx] at h
          obtain ⟨h1, h2⟩ := h
          subst h1
          subst h2
          exact ⟨rfl, by omega, by simp [ansIdAt, nth, Nat.sub_self, hx]⟩
        · simp [hx] at h
      · obtain ⟨h1, h2, h3⟩ := (mem_aRowFrom k qi rest (ai + 1) a b).mp h
        refine ⟨h1, by omega, ?_⟩
        have he : b - ai = (b - (ai + 1)) + 1 := by omega
        rw [he]
        simpa [ansIdAt, nth] using h3
    · rintro ⟨h1, h2, h3⟩
      subst h1
      by_cases he : b = ai
      · subst he
        rw [Nat.sub_self] at h3
        simp only [ansIdAt, nth] at h3
        left
        simp [h3]
      · right
        refine (mem_aRowFrom k _ rest (ai + 1) _ b).mpr ⟨rfl, by omega, ?_⟩
        have hq : b - ai = (b - (ai + 1)) + 1 := by omega
        rw [hq] at h3
        simpa [ansIdAt, nth] using h3

theorem aRowFrom_nodup (k : JValue) (qi : Nat) :
    ∀ (answers : List JValue) (ai : Nat), (aRowFrom k qi ai answers).Nodup
  | [], _ => List.nodup_nil
  | a :: rest, ai => by
    simp only [aRowFrom]
    by_cases ha : idOf a = some k
    · rw [if_pos ha]
      rw [List.singleton_append, List.nodup_cons]
      refine ⟨?_, aRowFrom_nodup k qi rest (ai + 1)⟩
      intro hmem
      have := aRowFrom_le k qi rest (ai + 1) (qi, ai) hmem
      omega
    · simp [ha, aRowFrom_nodup k qi rest (ai + 1)]

theorem aPositionsFrom_le (k : JValue) :
    ∀ (qs : List JValue) (n : Nat) (p : Nat × Nat), p ∈ aPositionsFrom k n qs → n ≤ p.1
  | [], _, _, h => absurd h (List.not_mem_nil _)
  | q :: qs, n, p, h => by
    simp only [aPositionsFrom, List.mem_append] at h
    rcases h with h | h
    · have := (aRowFrom_le k n (answersOf q) 0 p h).1
      omega
    · have := aPositionsFrom_le k qs (n + 1) p h
      omega

theorem mem_aPositionsFrom (k : JValue) :
    ∀ (qs : List JValue) (n a b : Nat),
      (a, b) ∈ aPositionsFrom k n qs ↔ n ≤ a ∧ aidAt qs (a - n) b = some k
  | [], n, a, b => by simp [aPositionsFrom, aidAt, nth]
  | q :: qs, n, a, b => by
    simp only [aPositionsFrom, List.mem_append]
    constructor
    · intro h
      rcases h with h | h
      · obtain ⟨h1, _, h3⟩ := (mem_aRowFrom k n (answersOf q) 0 a b).mp h
        subst h1
        refine ⟨le_refl a, ?_⟩
        rw [Nat.sub_self]
        simp only [aidAt, nth]
        rw [Nat.sub_zero] at h3
        simp only [ansIdAt] at h3
        exact h3
      · obtain ⟨h1, h2⟩ := (mem_aPositionsFrom k qs (n + 1) a b).mp h
        refine ⟨by omega, ?_⟩
        have he : a - n = (a - (n + 1)) + 1 := by omega
        rw [he]
        simpa [aidAt, nth] using h2
    · rintro ⟨h1, h2⟩
      by_cases he : a = n
      · subst he
        rw [Nat.sub_self] at h2
        simp only [aidAt, nth] at h2
        left
        refine (mem_aRowFrom k a (answersOf q) 0 a b).mpr ⟨rfl, Nat.zero_le b, ?_⟩
        rw [Nat.sub_zero]
        simp only [ansIdAt]
        exact h2
      · right
        refine (mem_aPositionsFrom k qs (n + 1) a b).mpr ⟨by omega, ?_⟩
        have hq : a - n = (a - (n + 1)) + 1 := by omega
        rw [hq] at h2
        simpa [aidAt, nth] using h2

theorem mem_aPositions (qs : List JValue) (k : JValue) (a b : Nat) :
    (a, b) ∈ aPositions qs k ↔ aidAt qs a b = some k := by
  rw [aPositions, mem_aPositionsFrom]
  simp

theorem aPositionsFrom_nodup (k : JValue) :
    ∀ (qs : List JValue) (n : Nat), (aPositionsFrom k n qs).Nodup
  | [], _ => List.nodup_nil
  | q :: qs, n => by
    simp only [aPositionsFrom]
    refine List.Nodup.append (aRowFrom_nodup k n (answersOf q) 0)
      (aPositionsFrom_nodup k qs (n + 1)) ?_
    intro p hp1 hp2
    have h1 := (aRowFrom_le k n (answersOf q) 0 p hp1).1
    have h2 := aPositionsFrom_le k qs (n + 1) p hp2
    omega

/- ------------------------------------------------------------------
Characterization of the occurrence scan
------------------------------------------------------------------ -/

theorem ebind_ok {α β : Type} (a : α) (f : α → Except PyError β) :
    (do let x ← Except.ok a; f x : Except PyError β) = f a := rfl

theorem ebind_error {α β : Type} (e : PyError) (f : α → Except PyError β) :
    (do let x ← (Except.error e : Except PyError α); f x : Except PyError β) =
      Except.error e := rfl

theorem mem_insertId (ids : List JValue) (v y : JValue) :
    y ∈ insertId ids v ↔ y = v ∨ y ∈ ids := by
  by_cases h : v ∈ ids
  · simp only [insertId, if_pos h]
    constructor
    · exact Or.inr
    · rintro (rfl | hy)
      · exact h
      · exact hy
  · simp [insertId, h, List.mem_cons]

theorem qidStep_eq_idOf (st : ScanState) (qi : Nat) (q : JValue) :
    qidStep st qi (getOpt q "id") =
      match idOf q with
      | some v =>
        { st with qidOcc := addOcc st.qidOcc v qi, allIds := insertId st.allIds v }
      | none => st := by
  cases q with
  | obj fs =>
    cases hl : lookupF fs "id" with
    | none => simp [qidStep, getOpt, idOf, hl]
    | some x =>
      cases ht : truthy x <;> simp [qidStep, getOpt, idOf, hl, ht]
  | null => rfl
  | bool b => rfl
  | num n => rfl
  | str s => rfl
  | arr xs => rfl

theorem ansStep_eq_idOf (st : ScanState) (qi ai : Nat) (a : JValue) :
    ansStep st qi ai (getOpt a "id") =
      match idOf a with
      | some v =>
        { st with ansOcc := addOcc st.ansOcc v (qi, ai), allIds := insertId st.allIds v }
      | none => st := by
  cases a with
  | obj fs =>
    cases hl : lookupF fs "id" with
    | none => simp [ansStep, getOpt, idOf, hl]
    | some x =>
      cases ht : truthy x <;> simp [ansStep, getOpt, idOf, hl, ht]
  | null => rfl
  | bool b => rfl
  | num n => rfl
  | str s => rfl
  | arr xs => rfl

theorem scanAnswersM_ok (qi : Nat) :
    ∀ (answers : List JValue) (ai : Nat) (st st' : ScanState),
      scanAnswersM qi ai st answers = .ok st' ↔
        answers.all isObj = true ∧ st' = scanAnswersT qi ai st answers
  | [], ai, st, st' => by
    simp [scanAnswersM, scanAnswersT, eq_comm]
  | a :: rest, ai, st, st' => by
    cases a with
    | obj fs =>
      have hred : scanAnswersM qi ai st (JValue.obj fs :: rest) =
          scanAnswersM qi (ai + 1) (ansStep st qi ai (lookupF fs "id")) rest := rfl
      rw [hred, scanAnswersM_ok qi rest (ai + 1)]
      simp [scanAnswersT, getOpt, List.all_cons, isObj]
    | null =>
      have hred : scanAnswersM qi ai st (JValue.null :: rest) =
          Except.error .attributeError := rfl
      rw [hred]
      simp [List.all_cons, isObj]
    | bool b =>
      have hred : scanAnswersM qi ai st (JValue.bool b :: rest) =
          Except.error .attributeError := rfl
      rw [hred]
      simp [List.all_cons, isObj]
    | num n =>
      have hred : scanAnswersM qi ai st (JValue.num n :: rest) =
          Except.error .attributeError := rfl
      rw [hred]
      simp [List.all_cons, isObj]
    | str s =>
      have hred : scanAnswersM qi ai st (JValue.str s :: rest) =
          Except.error .attributeError := rfl
      rw [hred]
      simp [List.all_cons, isObj]
    | arr xs =>
      have hred : scanAnswersM qi ai st (JValue.arr xs :: rest) =
          Except.error .attributeError := rfl
      rw [hred]
      simp [List.all_cons, isObj]

theorem scanQuestion_ok (st : ScanState) (qi : Nat) (q : JValue) (st' : ScanState) :
    scanQuestion st qi q = .ok st' ↔ qOk q = true ∧ st' = scanStepT st qi q := by
  cases q with
  | obj fs =>
    have hred : scanQuestion st qi (JValue.obj fs) =
        Except.bind (iterAnswers (paValue fs))
          (fun answers => scanAnswersM qi 0 (qidStep st qi (lookupF fs "id")) answers) := rfl
    rw [hred]
    cases hpa : paValue fs with
    | arr xs =>
      have hb : Except.bind (iterAnswers (JValue.arr xs))
          (fun answers => scanAnswersM qi 0 (qidStep st qi (lookupF fs "id")) answers) =
          scanAnswersM qi 0 (qidStep st qi (lookupF fs "id")) xs := rfl
      rw [hb, scanAnswersM_ok]
      have hq : qOk (JValue.obj fs) = xs.all isObj := by simp [qOk, hpa]
      have hst : scanStepT st qi (JValue.obj fs) =
          scanAnswersT qi 0 (qidStep st qi (lookupF fs "id")) xs := by
        simp [scanStepT, answersOf, hpa, getOpt]
      rw [hq, hst]
    | null => simp [iterAnswers, Except.bind, qOk, hpa]
    | bool b => simp [iterAnswers, Except.bind, qOk, hpa]
    | num n => simp [iterAnswers, Except.bind, qOk, hpa]
    | str s => simp [iterAnswers, Except.bind, qOk, hpa]
    | obj gs => simp [iterAnswers, Except.bind, qOk, hpa]
  | null => simp [scanQuestion, getAttr, ebind_error, qOk]
  | bool b => simp [scanQuestion, getAttr, ebind_error, qOk]
  | num n => simp [scanQuestion, getAttr, ebind_error, qOk]
  | str s => simp [scanQuestion, getAttr, ebind_error, qOk]
  | arr xs => simp [scanQuestion, getAttr, ebind_error, qOk]

theorem scanFrom_ok :
    ∀ (qs : List JValue) (n : Nat) (st st' : ScanState),
      scanFrom n st qs = .ok st' ↔ docOk qs = true ∧ st' = scanFromT n st qs
  | [], n, st, st' => by simp [scanFrom, scanFromT, docOk, eq_comm]
  | q :: qs, n, st, st' => by
    simp only [scanFrom]
    cases hsq : scanQuestion st n q with
    | error e =>
      rw [ebind_error]
      have hq : ¬ qOk q = true := by
        intro hok
        have := (scanQuestion_ok st n q (scanStepT st n q)).mpr ⟨hok, rfl⟩
        rw [hsq] at this
        cases this
      simp [docOk, List.all_cons, hq]
    | ok st1 =>
      obtain ⟨hok, hst1⟩ := (scanQuestion_ok st n q st1).mp hsq
      rw [ebind_ok, scanFrom_ok qs (n + 1)]
      subst hst1
      simp [docOk, List.all_cons, hok, scanFromT]

theorem scanAnswersT_qidOcc (qi : Nat) :
    ∀ (answers : List JValue) (ai : Nat) (st : ScanState),
      (scanAnswersT qi ai st answers).qidOcc = st.qidOcc
  | [], _, _ => rfl
  | a :: rest, ai, st => by
    rw [scanAnswersT, scanAnswersT_qidOcc qi rest (ai + 1), ansStep_eq_idOf]
    cases h : idOf a <;> simp

theorem scanAnswersT_ansOcc (qi : Nat) :
    ∀ (answers : List JValue) (ai : Nat) (st : ScanState) (k : JValue),
      occList (scanAnswersT qi ai st answers).ansOcc k =
        occList st.ansOcc k ++ aRowFrom k qi ai answers
  | [], _, _, _ => by simp [scanAnswersT, aRowFrom]
  | a :: rest, ai, st, k => by
    rw [scanAnswersT, scanAnswersT_ansOcc qi rest (ai + 1), ansStep_eq_idOf]
    cases h : idOf a with
    | none => simp [aRowFrom, h]
    | some v =>
      simp only
      rw [occList_addOcc]
      by_cases hv : k = v
      · subst hv
        simp [aRowFrom, h]
      · have hvk : ¬ v = k := fun hc => hv hc.symm
        simp [aRowFrom, h, hv, hvk]

theorem scanAnswersT_allIds (qi : Nat) :
    ∀ (answers : List JValue) (ai : Nat) (st : ScanState) (x : JValue),
      x ∈ (scanAnswersT qi ai st answers).allIds ↔
        x ∈ st.allIds ∨ aRowFrom x qi ai answers ≠ []
  | [], _, _, _ => by simp [scanAnswersT, aRowFrom]
  | a :: rest, ai, st, x => by
    rw [scanAnswersT, scanAnswersT_allIds qi rest (ai + 1), ansStep_eq_idOf]
    cases h : idOf a with
    | none => simp [aRowFrom, h]
    | some v =>
      simp only [mem_insertId]
      by_cases hv : v = x
      · subst hv
        simp [aRowFrom, h]
      · have hxv : ¬ x = v := fun hc => hv hc.symm
        simp [aRowFrom, h, hv, hxv]

theorem scanStepT_qidOcc (st : ScanState) (qi : Nat) (q : JValue) (k : JValue) :
    occList (scanStepT st qi q).qidOcc k =
      occList st.qidOcc k ++ (if idOf q = some k then [qi] else []) := by
  rw [scanStepT, scanAnswersT_qidOcc, qidStep_eq_idOf]
  cases h : idOf q with
  | none => simp [h]
  | some v =>
    simp only
    rw [occList_addOcc]
    by_cases hv : k = v
    · subst hv
      simp
    · have hvk : ¬ v = k := fun hc => hv hc.symm
      simp [hv, hvk]

theorem scanStepT_ansOcc (st : ScanState) (qi : Nat) (q : JValue) (k : JValue) :
    occList (scanStepT st qi q).ansOcc k =
      occList st.ansOcc k ++ aRowFrom k qi 0 (answersOf q) := by
  rw [scanStepT, scanAnswersT_ansOcc, qidStep_eq_idOf]
  cases h : idOf q <;> simp

theorem scanStepT_allIds (st : ScanState) (qi : Nat) (q : JValue) (x : JValue) :
    x ∈ (scanStepT st qi q).allIds ↔
      x ∈ st.allIds ∨ idOf q = some x ∨ aRowFrom x qi 0 (answersOf q) ≠ [] := by
  rw [scanStepT, scanAnswersT_allIds, qidStep_eq_idOf]
  cases h : idOf q with
  | none => simp [h]
  | some v =>
    simp only [mem_insertId, h]
    by_cases hv : v = x
    · subst hv
      simp
    · have hxv : ¬ x = v := fun hc => hv hc.symm
      simp [hv, hxv]

theorem scanFromT_qidOcc :
    ∀ (qs : List JValue) (n : Nat) (st : ScanState) (k : JValue),
      occList (scanFromT n st qs).qidOcc k = occList st.qidOcc k ++ qPositionsFrom k n qs
  | [], _, _, _ => by simp [scanFromT, qPositionsFrom]
  | q :: qs, n, st, k => by
    rw [scanFromT, scanFromT_qidOcc qs (n + 1), scanStepT_qidOcc]
    simp [qPositionsFrom, List.append_assoc]

theorem scanFromT_ansOcc :
    ∀ (qs : List JValue) (n : Nat) (st : ScanState) (k : JValue),
      occList (scanFromT n st qs).ansOcc k = occList st.ansOcc k ++ aPositionsFrom k n qs
  | [], _, _, _ => by simp [scanFromT, aPositionsFrom]
  | q :: qs, n, st, k => by
    rw [scanFromT, scanFromT_ansOcc qs (n + 1), scanStepT_ansOcc]
    simp [aPositionsFrom, List.append_assoc]

theorem scanFromT_allIds :
    ∀ (qs : List JValue) (n : Nat) (st : ScanState) (x : JValue),
      x ∈ (scanFromT n st qs).allIds ↔
        x ∈ st.allIds ∨ qPositionsFrom x n qs ≠ [] ∨ aPositionsFrom x n qs ≠ []
  | [], _, _, _ => by simp [scanFromT, qPositionsFrom, aPositionsFrom]
  | q :: qs, n, st, x => by
    rw [scanFromT, scanFromT_allIds qs (n + 1), scanStepT_allIds]
    simp only [qPositionsFrom, aPositionsFrom]
    by_cases hq : idOf q = some x <;>
      simp [hq, List.append_eq_nil] <;> tauto

/- ------------------------------------------------------------------
Key uniqueness of the indices and scan corollaries
------------------------------------------------------------------ -/

theorem scanAnswersT_ans_keys (qi : Nat) :
    ∀ (answers : List JValue) (ai : Nat) (st : ScanState),
      (st.ansOcc.map Prod.fst).Nodup →
      ((scanAnswersT qi ai st answers).ansOcc.map Prod.fst).Nodup
  | [], _, _, h => h
  | a :: rest, ai, st, h => by
    rw [scanAnswersT]
    apply scanAnswersT_ans_keys qi rest (ai + 1)
    rw [ansStep_eq_idOf]
    cases hi : idOf a with
    | none => simpa using h
    | some v =>
      simp only
      exact nodup_map_fst_addOcc v (qi, ai) st.ansOcc h

theorem scanStepT_qid_keys (st : ScanState) (qi : Nat) (q : JValue)
    (h : (st.qidOcc.map Prod.fst).Nodup) :
    ((scanStepT st qi q).qidOcc.map Prod.fst).Nodup := by
  rw [scanStepT, scanAnswersT_qidOcc, qidStep_eq_idOf]
  cases hi : idOf q with
  | none => simpa using h
  | some v =>
    simp only
    exact nodup_map_fst_addOcc v qi st.qidOcc h

theorem scanStepT_ans_keys (st : ScanState) (qi : Nat) (q : JValue)
    (h : (st.ansOcc.map Prod.fst).Nodup) :
    ((scanStepT st qi q).ansOcc.map Prod.fst).Nodup := by
  rw [scanStepT]
  apply scanAnswersT_ans_keys
  rw [qidStep_eq_idOf]
  cases hi : idOf q with
  | none => simpa using h
  | some v => simpa using h

theorem scanFromT_qid_keys :
    ∀ (qs : List JValue) (n : Nat) (st : ScanState),
      (st.qidOcc.map Prod.fst).Nodup →
      ((scanFromT n st qs).qidOcc.map Prod.fst).Nodup
  | [], _, _, h => h
  | q :: qs, n, st, h =>
    scanFromT_qid_keys qs (n + 1) _ (scanStepT_qid_keys st n q h)

theorem scanFromT_ans_keys :
    ∀ (qs : List JValue) (n : Nat) (st : ScanState),
      (st.ansOcc.map Prod.fst).Nodup →
      ((scanFromT n st qs).ansOcc.map Prod.fst).Nodup
  | [], _, _, h => h
  | q :: qs, n, st, h =>
    scanFromT_ans_keys qs (n + 1) _ (scanStepT_ans_keys st n q h)

theorem scanQuestions_ok (questions : List JValue) (st : ScanState) :
    scanQuestions questions = .ok st ↔
      docOk questions = true ∧ st = scanFromT 0 ⟨[], [], []⟩ questions :=
  scanFrom_ok questions 0 ⟨[], [], []⟩ st

theorem scan_qidOcc (questions : List JValue) (st : ScanState)
    (h : scanQuestions questions = .ok st) (k : JValue) :
    occList st.qidOcc k = qPositions questions k := by
  obtain ⟨_, rfl⟩ := (scanQuestions_ok questions st).mp h
  rw [scanFromT_qidOcc]
  simp [occList, qPositions]

theorem scan_ansOcc (questions : List JValue) (st : ScanState)
    (h : scanQuestions questions = .ok st) (k : JValue) :
    occList st.ansOcc k = aPositions questions k := by
  obtain ⟨_, rfl⟩ := (scanQuestions_ok questions st).mp h
  rw [scanFromT_ansOcc]
  simp [occList, aPositions]

theorem scan_allIds (questions : List JValue) (st : ScanState)
    (h : scanQuestions questions = .ok st) (x : JValue) :
    x ∈ st.allIds ↔ qPositions questions x ≠ [] ∨ aPositions questions x ≠ [] := by
  obtain ⟨_, rfl⟩ := (scanQuestions_ok questions st).mp h
  rw [scanFromT_allIds]
  simp [qPositions, aPositions]

theorem scan_qid_keys (questions : List JValue) (st : ScanState)
    (h : scanQuestions questions = .ok st) : (st.qidOcc.map Prod.fst).Nodup := by
  obtain ⟨_, rfl⟩ := (scanQuestions_ok questions st).mp h
  exact scanFromT_qid_keys questions 0 _ List.nodup_nil

theorem scan_ans_keys (questions : List JValue) (st : ScanState)
    (h : scanQuestions questions = .ok st) : (st.ansOcc.map Prod.fst).Nodup := by
  obtain ⟨_, rfl⟩ := (scanQuestions_ok questions st).mp h
  exact scanFromT_ans_keys questions 0 _ List.nodup_nil

theorem scan_docOk (questions : List JValue) (st : ScanState)
    (h : scanQuestions questions = .ok st) : docOk questions = true :=
  ((scanQuestions_ok questions st).mp h).1

/-- The keys reported as duplicate groups are exactly the values whose
occurrence list has at least two entries. -/
theorem mem_dupKeys (m : List (JValue × List π)) (hnd : (m.map Prod.fst).Nodup)
    (k : JValue) :
    k ∈ (findDuplicates m).map Prod.fst ↔ 2 ≤ (occList m k).length := by
  constructor
  · intro h
    obtain ⟨e, he, hk⟩ := List.mem_map.mp h
    obtain ⟨hm, hl⟩ := (mem_findDuplicates m e).mp he
    obtain ⟨k0, ws⟩ := e
    cases hk
    have he2 := occList_of_mem m hnd k0 ws hm
    have hl2 : 1 < ws.length := hl
    rw [he2]
    omega
  · intro h
    have hne : occList m k ≠ [] := by
      intro hc
      rw [hc] at h
      simp at h
    have hm := mem_of_occList_ne m k hne
    apply List.mem_map.mpr
    refine ⟨(k, occList m k), (mem_findDuplicates m _).mpr
      ⟨hm, by show 1 < (occList m k).length; omega⟩, rfl⟩

/-- Claim C8: duplicate detection is strictly per identifier class: a
value is reported as a duplicate group in a class iff it occurs at two or
more positions within that class; detection mode exits with status 1 iff
such a group exists in either class; and a value occurring exactly once
as a question identifier and exactly once as an answer identifier is
reported in neither class. -/
theorem duplicate_detection_per_class :
    ∀ (questions : List JValue) (st : ScanState),
      scanQuestions questions = .ok st →
      ((∀ k, k ∈ (findDuplicates st.qidOcc).map Prod.fst ↔
          2 ≤ (qPositions questions k).length)
      ∧ (∀ k, k ∈ (findDuplicates st.ansOcc).map Prod.fst ↔
          2 ≤ (aPositions questions k).length)
      ∧ (∀ fields gen fuel o, questionsField fields = .arr questions →
          checkIdsMain false gen fuel (.obj fields) = .ok (some o) →
          (o.exitCode = 1 ↔ (∃ k, 2 ≤ (qPositions questions k).length) ∨
            (∃ k, 2 ≤ (aPositions questions k).length)))
      ∧ (∀ k, (qPositions questions k).length = 1 →
          (aPositions questions k).length = 1 →
          k ∉ (findDuplicates st.qidOcc).map Prod.fst ∧
          k ∉ (findDuplicates st.ansOcc).map Prod.fst)) := by
  intro questions st hscan
  have hq : ∀ k, k ∈ (findDuplicates st.qidOcc).map Prod.fst ↔
      2 ≤ (qPositions questions k).length := by
    intro k
    rw [mem_dupKeys st.qidOcc (scan_qid_keys questions st hscan) k,
      scan_qidOcc questions st hscan k]
  have ha : ∀ k, k ∈ (findDuplicates st.ansOcc).map Prod.fst ↔
      2 ≤ (aPositions questions k).length := by
    intro k
    rw [mem_dupKeys st.ansOcc (scan_ans_keys questions st hscan) k,
      scan_ansOcc questions st hscan k]
  have hsum : 0 < (findDuplicates st.qidOcc).length + (findDuplicates st.ansOcc).length ↔
      (∃ k, 2 ≤ (qPositions questions k).length) ∨
        (∃ k, 2 ≤ (aPositions questions k).length) := by
    constructor
    · intro h0
      rcases Nat.lt_or_ge 0 (findDuplicates st.qidOcc).length with hl | hl
      · obtain ⟨e, he⟩ := List.exists_mem_of_length_pos hl
        exact Or.inl ⟨e.1, (hq e.1).mp (List.mem_map.mpr ⟨e, he, rfl⟩)⟩
      · have hl2 : 0 < (findDuplicates st.ansOcc).length := by omega
        obtain ⟨e, he⟩ := List.exists_mem_of_length_pos hl2
        exact Or.inr ⟨e.1, (ha e.1).mp (List.mem_map.mpr ⟨e, he, rfl⟩)⟩
    · intro h0
      rcases h0 with ⟨k, hk⟩ | ⟨k, hk⟩
      · have := (hq k).mpr hk
        obtain ⟨e, he, _⟩ := List.mem_map.mp this
        have : 0 < (findDuplicates st.qidOcc).length :=
          List.length_pos.mpr (fun hc => by rw [hc] at he; exact absurd he (List.not_mem_nil e))
        omega
      · have := (ha k).mpr hk
        obtain ⟨e, he, _⟩ := List.mem_map.mp this
        have : 0 < (findDuplicates st.ansOcc).length :=
          List.length_pos.mpr (fun hc => by rw [hc] at he; exact absurd he (List.not_mem_nil e))
        omega
  refine ⟨hq, ha, ?_, ?_⟩
  · intro fields gen fuel o hqf h
    simp only [checkIdsMain, hqf, hscan, Except.map] at h
    cases h
    rw [← hsum]
    by_cases hd : 0 <
        (findDuplicates st.qidOcc).length + (findDuplicates st.ansOcc).length <;>
      simp [hd]
  · intro k h1 h2
    constructor
    · rw [hq k, h1]
      omega
    · rw [ha k, h2]
      omega

/-- Witness for C8 on the concrete duplicate document: the value "a" is
reported as a question-level duplicate group, matching its two question
occurrences. -/
theorem duplicate_detection_per_class_w :
    JValue.str "a" ∈ (findDuplicates wScanSt.qidOcc).map Prod.fst ↔
      2 ≤ (qPositions wQs (JValue.str "a")).length :=
  (duplicate_detection_per_class wQs wScanSt (by decide)).1 (JValue.str "a")

/- ------------------------------------------------------------------
The fresh-identifier generator and the fix loop
------------------------------------------------------------------ -/

theorem generate_ok (gen : Nat → String) :
    ∀ (fuel i : Nat) (ex : List JValue) (x : String) (i2 : Nat) (ex2 : List JValue),
      generate_unique_uuid gen fuel i ex = some (x, i2, ex2) →
      JValue.str x ∉ ex ∧ ex2 = insertId ex (JValue.str x)
  | 0, _, _, _, _, _, h => by cases h
  | fuel + 1, i, ex, x, i2, ex2, h => by
    simp only [generate_unique_uuid] at h
    by_cases hm : JValue.str (gen i) ∈ ex
    · rw [if_pos hm] at h
      exact generate_ok gen fuel (i + 1) ex x i2 ex2 h
    · rw [if_neg hm] at h
      rw [Option.some_inj, Prod.mk.injEq, Prod.mk.injEq] at h
      obtain ⟨rfl, -, rfl⟩ := h
      exact ⟨hm, rfl⟩

theorem runFixLoop_spec (gen : Nat → String) (fuel : Nat) :
    ∀ (ps : List (Nat × Option Nat)) (st st' : FixState),
      runFixLoop gen fuel st ps = some st' →
      ∃ news : List String,
        news.length = ps.length ∧
        st'.log = st.log ++ ps.zip news ∧
        st'.questions = applyWrites st.questions (ps.zip news) ∧
        news.Nodup ∧
        (∀ x ∈ news, JValue.str x ∉ st.allIds) ∧
        (∀ y, y ∈ st'.allIds ↔ y ∈ st.allIds ∨ ∃ x ∈ news, y = JValue.str x)
  | [], st, st', h => by
    cases h
    exact ⟨[], rfl, by simp, by simp [applyWrites], List.nodup_nil, by simp, by simp⟩
  | pos :: rest, st, st', h => by
    simp only [runFixLoop] at h
    cases hg : generate_unique_uuid gen fuel st.genIdx st.allIds with
    | none => rw [hg] at h; cases h
    | some r =>
      obtain ⟨x, i2, ids2⟩ := r
      rw [hg] at h
      obtain ⟨hx1, hx2⟩ := generate_ok gen fuel st.genIdx st.allIds x i2 ids2 hg
      have hrec := runFixLoop_spec gen fuel rest
        ⟨applyWrite st.questions pos x, ids2, i2, st.log ++ [(pos, x)]⟩ st' (by exact h)
      obtain ⟨news, hlen, hlog, hqs, hnd, hfresh, hids⟩ := hrec
      simp only at hlog hqs hfresh hids
      refine ⟨x :: news, by simp [hlen], ?_, ?_, ?_, ?_, ?_⟩
      · rw [hlog, List.zip_cons_cons, List.append_assoc]
        rfl
      · rw [hqs, List.zip_cons_cons]
        rfl
      · refine List.nodup_cons.mpr ⟨?_, hnd⟩
        intro hxm
        have hni := hfresh x hxm
        rw [hx2] at hni
        exact hni ((mem_insertId _ _ _).mpr (Or.inl rfl))
      · intro y hy
        rcases List.mem_cons.mp hy with rfl | hy
        · exact hx1
        · intro hmem
          have hni := hfresh y hy
          rw [hx2] at hni
          exact hni ((mem_insertId _ _ _).mpr (Or.inr hmem))
      · intro y
        rw [hids, hx2, mem_insertId]
        simp only [List.mem_cons]
        constructor
        · rintro ((rfl | hy) | ⟨z, hz, rfl⟩)
          · exact Or.inr ⟨x, Or.inl rfl, rfl⟩
          · exact Or.inl hy
          · exact Or.inr ⟨z, Or.inr hz, rfl⟩
        · rintro (hy | ⟨z, rfl | hz, rfl⟩)
          · exact Or.inl (Or.inr hy)
          · exact Or.inl (Or.inl rfl)
          · exact Or.inr ⟨z, hz, rfl⟩

/- ------------------------------------------------------------------
Counting the fix positions
------------------------------------------------------------------ -/

theorem length_extras (g : π → Nat × Option Nat) :
    ∀ l : List (JValue × List π),
      (l.flatMap (fun e => (e.2.drop 1).map g)).length =
        (l.map (fun e => e.2.length - 1)).sum
  | [] => rfl
  | e :: rest => by
    rw [List.flatMap_cons, List.length_append, List.length_map, List.length_drop,
      List.map_cons, List.sum_cons, length_extras g rest]

theorem fixPositions_length (st : ScanState) :
    (fixPositions st).length =
      ((findDuplicates st.qidOcc).map (fun e => e.2.length - 1)).sum +
        ((findDuplicates st.ansOcc).map (fun e => e.2.length - 1)).sum := by
  rw [fixPositions, List.length_append, length_extras, length_extras]

theorem length_le_sum :
    ∀ l : List (JValue × List π), (∀ e ∈ l, 1 ≤ e.2.length) →
      l.length ≤ (l.map (fun e => e.2.length)).sum
  | [], _ => le_refl 0
  | e :: rest, h => by
    simp only [List.length_cons, List.map_cons, List.sum_cons]
    have h1 : 1 ≤ e.2.length := h e (List.mem_cons_self _ _)
    have h2 := length_le_sum rest (fun x hx => h x (List.mem_cons_of_mem _ hx))
    omega

theorem sum_extras :
    ∀ l : List (JValue × List π), (∀ e ∈ l, 1 ≤ e.2.length) →
      (l.map (fun e => e.2.length - 1)).sum = (l.map (fun e => e.2.length)).sum - l.length
  | [], _ => rfl
  | e :: rest, h => by
    simp only [List.map_cons, List.sum_cons, List.length_cons]
    rw [sum_extras rest (fun x hx => h x (List.mem_cons_of_mem _ hx))]
    have h1 : 1 ≤ e.2.length := h e (List.mem_cons_self _ _)
    have h2 := length_le_sum rest (fun x hx => h x (List.mem_cons_of_mem _ hx))
    omega

theorem findDuplicates_one_le (m : List (JValue × List π)) :
    ∀ e ∈ findDuplicates m, 1 ≤ e.2.length := by
  intro e he
  have := ((mem_findDuplicates m e).mp he).2
  omega

theorem fixPositions_length_sub (st : ScanState) :
    (fixPositions st).length = dupOccTotal st - dupGroupCount st := by
  rw [fixPositions_length, dupOccTotal, dupGroupCount,
    sum_extras _ (findDuplicates_one_le st.qidOcc),
    sum_extras _ (findDuplicates_one_le st.ansOcc)]
  have h1 := length_le_sum _ (findDuplicates_one_le st.qidOcc)
  have h2 := length_le_sum _ (findDuplicates_one_le st.ansOcc)
  omega

/- ------------------------------------------------------------------
Reading the document through replacement writes
------------------------------------------------------------------ -/

theorem isObj_setIdField (q : JValue) (v : String) : isObj (setIdField q v) = isObj q := by
  cases q <;> simp [setIdField, isObj]

theorem idOf_setIdField (q : JValue) (v : String) (hobj : isObj q = true) :
    idOf (setIdField q v) = if v = "" then none else some (.str v) := by
  cases q with
  | obj fs =>
    simp only [setIdField, idOf, lookupF_setField_same]
    by_cases hv : v = "" <;> simp [truthy, hv]
  | null => simp [isObj] at hobj
  | bool b => simp [isObj] at hobj
  | num n => simp [isObj] at hobj
  | str s => simp [isObj] at hobj
  | arr xs => simp [isObj] at hobj

theorem answersOf_setIdField (q : JValue) (v : String) :
    answersOf (setIdField q v) = answersOf q := by
  cases q with
  | obj fs =>
    simp only [setIdField, answersOf, paValue,
      lookupF_setField_ne "id" "possibleAnswers" (.str v) (by decide) fs]
  | null => rfl
  | bool b => rfl
  | num n => rfl
  | str s => rfl
  | arr xs => rfl

theorem idOf_setAnsId (ai : Nat) (v : String) (q : JValue) :
    idOf (setAnsId ai v q) = idOf q := by
  cases q with
  | obj fs =>
    cases hpa : lookupF fs "possibleAnswers" with
    | some w =>
      cases w with
      | arr xs =>
        simp only [setAnsId, hpa, idOf,
          lookupF_setField_ne "possibleAnswers" "id" _ (by decide) fs]
      | null => simp [setAnsId, hpa]
      | bool b => simp [setAnsId, hpa]
      | num n => simp [setAnsId, hpa]
      | str s => simp [setAnsId, hpa]
      | obj gs => simp [setAnsId, hpa]
    | none => simp [setAnsId, hpa]
  | null => rfl
  | bool b => rfl
  | num n => rfl
  | str s => rfl
  | arr xs => rfl

theorem answersOf_setAnsId (ai : Nat) (v : String) (q : JValue) :
    answersOf (setAnsId ai v q) = updateAt (answersOf q) ai (fun a => setIdField a v) := by
  cases q with
  | obj fs =>
    cases hpa : lookupF fs "possibleAnswers" with
    | some w =>
      cases w with
      | arr xs =>
        cases xs with
        | nil =>
          simp [setAnsId, hpa, answersOf, paValue, lookupF_setField_same, truthy, updateAt]
        | cons x rest =>
          simp only [setAnsId, hpa, answersOf, paValue, lookupF_setField_same]
          cases ai <;> simp [updateAt, truthy]
      | null => simp [setAnsId, hpa, answersOf, paValue, truthy, updateAt]
      | bool b =>
        cases b <;> simp [setAnsId, hpa, answersOf, paValue, truthy, updateAt]
      | num n =>
        by_cases hn : n = 0 <;> simp [setAnsId, hpa, answersOf, paValue, truthy, hn, updateAt]
      | str s =>
        by_cases hs : s = "" <;> simp [setAnsId, hpa, answersOf, paValue, truthy, hs, updateAt]
      | obj gs =>
        cases gs <;> simp [setAnsId, hpa, answersOf, paValue, truthy, updateAt]
    | none => simp [setAnsId, hpa, answersOf, paValue, updateAt]
  | null => simp [setAnsId, answersOf, updateAt]
  | bool b => simp [setAnsId, answersOf, updateAt]
  | num n => simp [setAnsId, answersOf, updateAt]
  | str s => simp [setAnsId, answersOf, updateAt]
  | arr xs => simp [setAnsId, answersOf, updateAt]

theorem isObj_setAnsId (ai : Nat) (v : String) (q : JValue) :
    isObj (setAnsId ai v q) = isObj q := by
  cases q with
  | obj fs =>
    cases hpa : lookupF fs "possibleAnswers" with
    | some w => cases w <;> simp [setAnsId, hpa, isObj]
    | none => simp [setAnsId, hpa, isObj]
  | null => rfl
  | bool b => rfl
  | num n => rfl
  | str s => rfl
  | arr xs => rfl

/-- The question stored at `qj` after one replacement write. -/
theorem nth_applyWrite (qs : List JValue) (pos : Nat × Option Nat) (v : String) (qj : Nat) :
    nth (applyWrite qs pos v) qj =
      (nth qs qj).map (fun q =>
        if qj = pos.1 then
          (match pos.2 with | none => setIdField q v | some ai => setAnsId ai v q)
        else q) := by
  obtain ⟨qi, oai⟩ := pos
  by_cases hq : qj = qi
  · subst hq
    cases oai <;> simp only [applyWrite] <;> rw [nth_updateAt_same] <;> simp
  · cases oai <;> simp only [applyWrite] <;>
      rw [nth_updateAt_ne _ _ _ _ (fun hc => hq hc.symm)] <;>
      simp [hq]

theorem idAtP_applyWrite_ne (qs : List JValue) (pos p : Nat × Option Nat) (v : String)
    (h : p ≠ pos) : idAtP (applyWrite qs pos v) p = idAtP qs p := by
  obtain ⟨qi, oai⟩ := pos
  obtain ⟨qj, oaj⟩ := p
  cases oaj with
  | none =>
    simp only [idAtP, qidAt, nth_applyWrite]
    cases hn : nth qs qj with
    | none => rfl
    | some q =>
      by_cases hq : qj = qi
      · subst hq
        cases oai with
        | none => exact absurd rfl h
        | some ai => simp [idOf_setAnsId]
      · simp [hq]
  | some aj =>
    simp only [idAtP, aidAt, nth_applyWrite]
    cases hn : nth qs qj with
    | none => rfl
    | some q =>
      by_cases hq : qj = qi
      · subst hq
        cases oai with
        | none => simp [answersOf_setIdField]
        | some ai =>
          have haj : aj ≠ ai := fun hc => h (by rw [hc])
          simp [answersOf_setAnsId,
            nth_updateAt_ne (answersOf q) ai aj _ (fun hc => haj hc.symm)]
      · simp [hq]

theorem idAtP_applyWrite_same (qs : List JValue) (pos : Nat × Option Nat) (v : String)
    (hw : writableP qs pos) :
    idAtP (applyWrite qs pos v) pos = if v = "" then none else some (.str v) := by
  obtain ⟨qi, oai⟩ := pos
  cases oai with
  | none =>
    obtain ⟨q, hq, hobj⟩ := hw
    simp only [idAtP, qidAt, nth_applyWrite, hq]
    simp [idOf_setIdField q v hobj]
  | some ai =>
    obtain ⟨q, a, hq, ha, hobj⟩ := hw
    simp only [idAtP, aidAt, nth_applyWrite, hq]
    simp [answersOf_setAnsId, nth_updateAt_same, ha, idOf_setIdField a v hobj]

theorem writableP_applyWrite (qs : List JValue) (pos p : Nat × Option Nat) (v : String)
    (h : writableP qs p) : writableP (applyWrite qs pos v) p := by
  obtain ⟨qi, oai⟩ := pos
  obtain ⟨qj, oaj⟩ := p
  cases oaj with
  | none =>
    obtain ⟨q, hq, hobj⟩ := h
    refine ⟨_, by rw [nth_applyWrite, hq]; rfl, ?_⟩
    by_cases hqq : qj = qi
    · subst hqq
      cases oai with
      | none => simpa [isObj_setIdField] using hobj
      | some ai => simpa [isObj_setAnsId] using hobj
    · simpa [hqq] using hobj
  | some aj =>
    obtain ⟨q, a, hq, ha, hobj⟩ := h
    by_cases hqq : qj = qi
    · subst hqq
      cases oai with
      | none =>
        refine ⟨setIdField q v, a, ?_, ?_, hobj⟩
        · rw [nth_applyWrite, hq]
          simp
        · rw [answersOf_setIdField]
          exact ha
      | some ai =>
        by_cases hai : aj = ai
        · subst hai
          refine ⟨setAnsId aj v q, setIdField a v, ?_, ?_, by simp [isObj_setIdField, hobj]⟩
          · rw [nth_applyWrite, hq]
            simp
          · rw [answersOf_setAnsId, nth_updateAt_same, ha]
            rfl
        · refine ⟨setAnsId ai v q, a, ?_, ?_, hobj⟩
          · rw [nth_applyWrite, hq]
            simp
          · rw [answersOf_setAnsId, nth_updateAt_ne _ _ _ _ (fun hc => hai hc.symm)]
            exact ha
    · refine ⟨q, a, ?_, ha, hobj⟩
      rw [nth_applyWrite, hq]
      simp [hqq]

theorem qOk_setIdField (q : JValue) (v : String) : qOk (setIdField q v) = qOk q := by
  cases q with
  | obj fs =>
    simp only [setIdField, qOk, paValue,
      lookupF_setField_ne "id" "possibleAnswers" (.str v) (by decide) fs]
  | null => rfl
  | bool b => rfl
  | num n => rfl
  | str s => rfl
  | arr xs => rfl

theorem qOk_setAnsId (ai : Nat) (v : String) (q : JValue) : qOk (setAnsId ai v q) = qOk q := by
  cases q with
  | obj fs =>
    cases hpa : lookupF fs "possibleAnswers" with
    | some w =>
      cases w with
      | arr xs =>
        cases xs with
        | nil => simp [setAnsId, hpa, qOk, paValue, lookupF_setField_same, truthy, updateAt]
        | cons x rest =>
          simp only [setAnsId, hpa, qOk, paValue, lookupF_setField_same]
          have hall := all_updateAt isObj (fun a => setIdField a v)
            (fun a => isObj_setIdField a v) (x :: rest) ai
          cases ai with
          | zero => simpa [updateAt, truthy] using hall
          | succ m => simpa [updateAt, truthy] using hall
      | null => simp [setAnsId, hpa]
      | bool b => simp [setAnsId, hpa]
      | num n => simp [setAnsId, hpa]
      | str s => simp [setAnsId, hpa]
      | obj gs => simp [setAnsId, hpa]
    | none => simp [setAnsId, hpa]
  | null => rfl
  | bool b => rfl
  | num n => rfl
  | str s => rfl
  | arr xs => rfl

theorem docOk_applyWrite (qs : List JValue) (pos : Nat × Option Nat) (v : String)
    (h : docOk qs = true) : docOk (applyWrite qs pos v) = true := by
  obtain ⟨qi, oai⟩ := pos
  cases oai with
  | none =>
    rw [docOk, applyWrite,
      all_updateAt qOk (fun q => setIdField q v) (fun q => qOk_setIdField q v) qs qi]
    exact h
  | some ai =>
    rw [docOk, applyWrite,
      all_updateAt qOk (setAnsId ai v) (fun q => qOk_setAnsId ai v q) qs qi]
    exact h

theorem docOk_applyWrites :
    ∀ (ws : List ((Nat × Option Nat) × String)) (qs : List JValue),
      docOk qs = true → docOk (applyWrites qs ws) = true
  | [], _, h => h
  | w :: rest, qs, h =>
    docOk_applyWrites rest (applyWrite qs w.1 w.2) (docOk_applyWrite qs w.1 w.2 h)

theorem writableP_applyWrites :
    ∀ (ws : List ((Nat × Option Nat) × String)) (qs : List JValue) (p : Nat × Option Nat),
      writableP qs p → writableP (applyWrites qs ws) p
  | [], _, _, h => h
  | w :: rest, qs, p, h =>
    writableP_applyWrites rest (applyWrite qs w.1 w.2) p (writableP_applyWrite qs w.1 p w.2 h)

theorem idAtP_applyWrites_not_mem :
    ∀ (ws : List ((Nat × Option Nat) × String)) (qs : List JValue) (p : Nat × Option Nat),
      (∀ w ∈ ws, w.1 ≠ p) → idAtP (applyWrites qs ws) p = idAtP qs p
  | [], _, _, _ => rfl
  | w :: rest, qs, p, h => by
    have h1 := idAtP_applyWrites_not_mem rest (applyWrite qs w.1 w.2) p
      (fun x hx => h x (List.mem_cons_of_mem _ hx))
    rw [applyWrites] at h1 ⊢
    simp only [List.foldl_cons] at h1 ⊢
    rw [h1, idAtP_applyWrite_ne qs w.1 p w.2
      (fun hc => h w (List.mem_cons_self _ _) hc.symm)]

theorem idAtP_applyWrites_mem :
    ∀ (ws : List ((Nat × Option Nat) × String)) (qs : List JValue),
      (ws.map Prod.fst).Nodup →
      ∀ (p : Nat × Option Nat) (v : String), (p, v) ∈ ws → writableP qs p →
      idAtP (applyWrites qs ws) p = if v = "" then none else some (.str v)
  | [], _, _, _, _, hm, _ => absurd hm (List.not_mem_nil _)
  | w :: rest, qs, hnd, p, v, hm, hwr => by
    rw [List.map_cons, List.nodup_cons] at hnd
    rcases List.mem_cons.mp hm with rfl | hm'
    · have hnotin : ∀ x ∈ rest, x.1 ≠ p := by
        intro x hx hc
        exact hnd.1 (List.mem_map.mpr ⟨x, hx, hc⟩)
      have h1 := idAtP_applyWrites_not_mem rest (applyWrite qs p v) p hnotin
      rw [applyWrites]
      simp only [List.foldl_cons]
      rw [applyWrites] at h1
      rw [h1, idAtP_applyWrite_same qs p v hwr]
    · rw [applyWrites]
      simp only [List.foldl_cons]
      have := idAtP_applyWrites_mem rest (applyWrite qs w.1 w.2) hnd.2 p v hm'
        (writableP_applyWrite qs w.1 p w.2 hwr)
      rw [applyWrites] at this
      exact this

/- ------------------------------------------------------------------
Structure of the set of fix positions
------------------------------------------------------------------ -/

theorem mem_fixPositions_q (st : ScanState) (qi : Nat) :
    (qi, (none : Option Nat)) ∈ fixPositions st ↔
      ∃ k locs, (k, locs) ∈ findDuplicates st.qidOcc ∧ qi ∈ locs.drop 1 := by
  simp only [fixPositions, List.mem_append, List.mem_flatMap, List.mem_map]
  constructor
  · rintro (⟨e, he, x, hx, hpe⟩ | ⟨e, he, x, hx, hpe⟩)
    · have hxq : x = qi := congrArg Prod.fst hpe
      subst hxq
      exact ⟨e.1, e.2, he, hx⟩
    · have : some x.2 = none := congrArg Prod.snd hpe
      cases this
  · rintro ⟨k, locs, hm, hq⟩
    exact Or.inl ⟨(k, locs), hm, qi, hq, rfl⟩

theorem mem_fixPositions_a (st : ScanState) (qi ai : Nat) :
    (qi, some ai) ∈ fixPositions st ↔
      ∃ k locs, (k, locs) ∈ findDuplicates st.ansOcc ∧ (qi, ai) ∈ locs.drop 1 := by
  simp only [fixPositions, List.mem_append, List.mem_flatMap, List.mem_map]
  constructor
  · rintro (⟨e, he, x, hx, hpe⟩ | ⟨e, he, x, hx, hpe⟩)
    · have : (none : Option Nat) = some ai := congrArg Prod.snd hpe
      cases this
    · have h1 : x.1 = qi := congrArg Prod.fst hpe
      have h2 : x.2 = ai := by
        have := congrArg Prod.snd hpe
        simpa using this
      refine ⟨e.1, e.2, he, ?_⟩
      have : x = (qi, ai) := Prod.ext h1 h2
      rw [← this]
      exact hx
  · rintro ⟨k, locs, hm, hq⟩
    exact Or.inr ⟨(k, locs), hm, (qi, ai), hq, rfl⟩

theorem nodup_flatMap_of {β : Type} (l : List α) (f : α → List β)
    (hl : l.Nodup) (hinner : ∀ a ∈ l, (f a).Nodup)
    (hdisj : ∀ a ∈ l, ∀ b ∈ l, a ≠ b → ∀ x ∈ f a, x ∉ f b) :
    (l.flatMap f).Nodup := by
  induction l with
  | nil => exact List.nodup_nil
  | cons a rest ih =>
    rw [List.flatMap_cons]
    rw [List.nodup_cons] at hl
    refine List.Nodup.append (hinner a (List.mem_cons_self _ _)) ?_ ?_
    · exact ih hl.2 (fun b hb => hinner b (List.mem_cons_of_mem _ hb))
        (fun b hb c hc => hdisj b (List.mem_cons_of_mem _ hb) c (List.mem_cons_of_mem _ hc))
    · intro x hx1 hx2
      obtain ⟨b, hb, hxb⟩ := List.mem_flatMap.mp hx2
      exact hdisj a (List.mem_cons_self _ _) b (List.mem_cons_of_mem _ hb)
        (fun hc => hl.1 (by rw [hc]; exact hb)) x hx1 hxb

theorem entries_key_injective (m : List (JValue × List π))
    (hnd : (m.map Prod.fst).Nodup) (a b : JValue × List π)
    (ha : a ∈ m) (hb : b ∈ m) (hk : a.1 = b.1) : a = b := by
  have h1 := occList_of_mem m hnd a.1 a.2 ha
  have h2 := occList_of_mem m hnd b.1 b.2 hb
  rw [hk] at h1
  exact Prod.ext hk (by rw [← h1, ← h2])

theorem findDuplicates_keys_nodup (m : List (JValue × List π))
    (h : (m.map Prod.fst).Nodup) : ((findDuplicates m).map Prod.fst).Nodup :=
  List.Nodup.sublist (List.Sublist.map Prod.fst (List.filter_sublist m)) h

theorem findDuplicates_nodup (m : List (JValue × List π))
    (h : (m.map Prod.fst).Nodup) : (findDuplicates m).Nodup :=
  List.Nodup.sublist (List.filter_sublist m) (List.Nodup.of_map _ h)

theorem fd_qid_locs (questions : List JValue) (st : ScanState)
    (hscan : scanQuestions questions = .ok st) (k : JValue) (locs : List Nat)
    (hm : (k, locs) ∈ findDuplicates st.qidOcc) :
    locs = qPositions questions k ∧ 1 < locs.length := by
  obtain ⟨hmem, hlen⟩ := (mem_findDuplicates _ _).mp hm
  have h1 := occList_of_mem st.qidOcc (scan_qid_keys questions st hscan) k locs hmem
  rw [scan_qidOcc questions st hscan] at h1
  exact ⟨h1.symm, hlen⟩

theorem fd_ans_locs (questions : List JValue) (st : ScanState)
    (hscan : scanQuestions questions = .ok st) (k : JValue) (locs : List (Nat × Nat))
    (hm : (k, locs) ∈ findDuplicates st.ansOcc) :
    locs = aPositions questions k ∧ 1 < locs.length := by
  obtain ⟨hmem, hlen⟩ := (mem_findDuplicates _ _).mp hm
  have h1 := occList_of_mem st.ansOcc (scan_ans_keys questions st hscan) k locs hmem
  rw [scan_ansOcc questions st hscan] at h1
  exact ⟨h1.symm, hlen⟩

theorem fixPositions_nodup (questions : List JValue) (st : ScanState)
    (hscan : scanQuestions questions = .ok st) : (fixPositions st).Nodup := by
  have hqk := scan_qid_keys questions st hscan
  have hak := scan_ans_keys questions st hscan
  rw [fixPositions]
  refine List.Nodup.append ?_ ?_ ?_
  · apply nodup_flatMap_of _ _ (findDuplicates_nodup _ hqk)
    · intro e he
      have h2 := (fd_qid_locs questions st hscan e.1 e.2 he).1
      refine List.Nodup.map (fun x y hxy => congrArg Prod.fst hxy) ?_
      refine List.Nodup.sublist (List.drop_sublist 1 e.2) ?_
      rw [h2, qPositions]
      exact qPositionsFrom_nodup e.1 questions 0
    · intro a hafd b hbfd hne x hx1 hx2
      obtain ⟨xa, hxa2, hxa3⟩ := List.mem_map.mp hx1
      obtain ⟨xb, hxb2, hxb3⟩ := List.mem_map.mp hx2
      have hxab : xa = xb := by
        have := hxa3.trans hxb3.symm
        exact congrArg Prod.fst this
      subst hxab
      have hqa : qidAt questions xa = some a.1 := by
        have h2 := (fd_qid_locs questions st hscan a.1 a.2 hafd).1
        have : xa ∈ a.2 := List.mem_of_mem_drop hxa2
        rw [h2] at this
        exact (mem_qPositions questions a.1 xa).mp this
      have hqb : qidAt questions xa = some b.1 := by
        have h2 := (fd_qid_locs questions st hscan b.1 b.2 hbfd).1
        have : xa ∈ b.2 := List.mem_of_mem_drop hxb2
        rw [h2] at this
        exact (mem_qPositions questions b.1 xa).mp this
      have hkeq : a.1 = b.1 := by
        have := hqa.symm.trans hqb
        injection this
      exact hne (entries_key_injective _ (findDuplicates_keys_nodup _ hqk) a b hafd hbfd hkeq)
  · apply nodup_flatMap_of _ _ (findDuplicates_nodup _ hak)
    · intro e he
      have h2 := (fd_ans_locs questions st hscan e.1 e.2 he).1
      refine List.Nodup.map ?_ ?_
      · intro x y hxy
        have h1 := congrArg Prod.fst hxy
        have hsnd := congrArg Prod.snd hxy
        simp only at h1 hsnd
        injection hsnd with hsnd
        exact Prod.ext h1 hsnd
      · refine List.Nodup.sublist (List.drop_sublist 1 e.2) ?_
        rw [h2, aPositions]
        exact aPositionsFrom_nodup e.1 questions 0
    · intro a hafd b hbfd hne x hx1 hx2
      obtain ⟨xa, hxa2, hxa3⟩ := List.mem_map.mp hx1
      obtain ⟨xb, hxb2, hxb3⟩ := List.mem_map.mp hx2
      have hxab : xa = xb := by
        have heq := hxa3.trans hxb3.symm
        have h1 := congrArg Prod.fst heq
        have h2 := congrArg Prod.snd heq
        simp only at h1 h2
        injection h2 with h2
        exact Prod.ext h1 h2
      subst hxab
      have hqa : aidAt questions xa.1 xa.2 = some a.1 := by
        have h2 := (fd_ans_locs questions st hscan a.1 a.2 hafd).1
        have hmm : xa ∈ a.2 := List.mem_of_mem_drop hxa2
        rw [h2] at hmm
        exact (mem_aPositions questions a.1 xa.1 xa.2).mp hmm
      have hqb : aidAt questions xa.1 xa.2 = some b.1 := by
        have h2 := (fd_ans_locs questions st hscan b.1 b.2 hbfd).1
        have hmm : xa ∈ b.2 := List.mem_of_mem_drop hxb2
        rw [h2] at hmm
        exact (mem_aPositions questions b.1 xa.1 xa.2).mp hmm
      have hkeq : a.1 = b.1 := by
        have := hqa.symm.trans hqb
        injection this
      exact hne (entries_key_injective _ (findDuplicates_keys_nodup _ hak) a b hafd hbfd hkeq)
  · intro x hx1 hx2
    obtain ⟨e, he, hxm⟩ := List.mem_flatMap.mp hx1
    obtain ⟨y, hy, hye⟩ := List.mem_map.mp hxm
    obtain ⟨e2, he2, hxm2⟩ := List.mem_flatMap.mp hx2
    obtain ⟨y2, hy2, hye2⟩ := List.mem_map.mp hxm2
    have h1 : x.2 = none := (congrArg Prod.snd hye).symm
    have h2 : x.2 = some y2.2 := (congrArg Prod.snd hye2).symm
    rw [h1] at h2
    cases h2

/-- Claim C2: every identifier newly generated by a terminating repair
run is distinct from every identifier occurring anywhere in the document
(question-level or answer-level) and from every other identifier
generated in the same run; each accepted candidate is inserted into the
running global identifier set immediately, which is what makes this
hold. -/
theorem repair_fresh_ids_unique :
    ∀ (questions : List JValue) (st : ScanState) (gen : Nat → String) (fuel : Nat)
      (res : FixState),
      scanQuestions questions = .ok st →
      runFixLoop gen fuel ⟨questions, st.allIds, 0, []⟩ (fixPositions st) = some res →
      ((res.log.map Prod.snd).Nodup
      ∧ (∀ s ∈ res.log.map Prod.snd, ∀ k : JValue,
          (qPositions questions k ≠ [] ∨ aPositions questions k ≠ []) →
          JValue.str s ≠ k)) := by
  intro questions st gen fuel res hscan hrun
  obtain ⟨news, hlen, hlog, hqs, hnd, hfresh, hids⟩ :=
    runFixLoop_spec gen fuel (fixPositions st) _ res hrun
  simp only at hlog hqs hfresh hids
  have hmap : res.log.map Prod.snd = news := by
    rw [hlog]
    simp only [List.nil_append]
    exact List.map_snd_zip _ _ (by omega)
  constructor
  · rw [hmap]
    exact hnd
  · intro s hs k hocc heq
    rw [hmap] at hs
    have hnotin := hfresh s hs
    have hin : k ∈ st.allIds := (scan_allIds questions st hscan k).mpr hocc
    rw [heq] at hnotin
    exact hnotin hin

/-- Claim C3: after a terminating repair run the first occurrence (in
document order) of every duplicate group still holds its original
identifier, and the number of replacement-log entries equals the total
number of occurrences in duplicate groups minus the number of duplicate
groups (one replacement per occurrence after the first in each group). -/
theorem repair_first_kept_and_count :
    ∀ (questions : List JValue) (st : ScanState) (gen : Nat → String) (fuel : Nat)
      (res : FixState),
      scanQuestions questions = .ok st →
      runFixLoop gen fuel ⟨questions, st.allIds, 0, []⟩ (fixPositions st) = some res →
      ((∀ k locs, (k, locs) ∈ findDuplicates st.qidOcc →
          ∀ p ∈ locs.head?, qidAt res.questions p = some k)
      ∧ (∀ k locs, (k, locs) ∈ findDuplicates st.ansOcc →
          ∀ p ∈ locs.head?, aidAt res.questions p.1 p.2 = some k)
      ∧ res.log.length = dupOccTotal st - dupGroupCount st) := by
  intro questions st gen fuel res hscan hrun
  obtain ⟨news, hlen, hlog, hqs, hnd, hfresh, hids⟩ :=
    runFixLoop_spec gen fuel (fixPositions st) _ res hrun
  simp only at hlog hqs
  refine ⟨?_, ?_, ?_⟩
  · intro k locs hm p hp
    rw [Option.mem_def] at hp
    obtain ⟨hlocs, hlen2⟩ := fd_qid_locs questions st hscan k locs hm
    have hpmem : p ∈ locs := List.mem_of_mem_head? hp
    have hqid : qidAt questions p = some k := by
      rw [hlocs] at hpmem
      exact (mem_qPositions _ _ _).mp hpmem
    have hnotw : ∀ w ∈ (fixPositions st).zip news, w.1 ≠ ((p, none) : Nat × Option Nat) := by
      rintro ⟨w1, w2⟩ hw hc
      simp only at hc
      subst hc
      have hw1 : (p, (none : Option Nat)) ∈ fixPositions st := (List.of_mem_zip hw).1
      obtain ⟨k2, locs2, hm2, hp2⟩ := (mem_fixPositions_q st p).mp hw1
      obtain ⟨hlocs2, -⟩ := fd_qid_locs questions st hscan k2 locs2 hm2
      have hqid2 : qidAt questions p = some k2 := by
        have hmm := List.mem_of_mem_drop hp2
        rw [hlocs2] at hmm
        exact (mem_qPositions _ _ _).mp hmm
      have hk12 : k = k2 := by
        have := hqid.symm.trans hqid2
        injection this
      subst hk12
      have hent : ((k, locs) : JValue × List Nat) = (k, locs2) :=
        entries_key_injective _
          (findDuplicates_keys_nodup _ (scan_qid_keys questions st hscan))
          _ _ hm hm2 rfl
      have hll : locs = locs2 := congrArg Prod.snd hent
      rw [← hll] at hp2
      have hndl : locs.Nodup := by
        rw [hlocs, qPositions]
        exact qPositionsFrom_nodup k questions 0
      cases locs with
      | nil => cases hp
      | cons h0 t =>
        have hh0 : h0 = p := by
          rw [List.head?_cons, Option.some_inj] at hp
          exact hp
        subst hh0
        rw [List.drop_one, List.tail_cons] at hp2
        exact (List.nodup_cons.mp hndl).1 hp2
    have hpres := idAtP_applyWrites_not_mem ((fixPositions st).zip news) questions
      (p, none) hnotw
    rw [hqs]
    have hfinal : idAtP (applyWrites questions ((fixPositions st).zip news)) (p, none) =
        some k := by
      rw [hpres]
      exact hqid
    exact hfinal
  · intro k locs hm p hp
    rw [Option.mem_def] at hp
    obtain ⟨hlocs, hlen2⟩ := fd_ans_locs questions st hscan k locs hm
    have hpmem : p ∈ locs := List.mem_of_mem_head? hp
    have hqid : aidAt questions p.1 p.2 = some k := by
      rw [hlocs] at hpmem
      exact (mem_aPositions _ _ _ _).mp hpmem
    have hnotw : ∀ w ∈ (fixPositions st).zip news,
        w.1 ≠ ((p.1, some p.2) : Nat × Option Nat) := by
      rintro ⟨w1, w2⟩ hw hc
      simp only at hc
      subst hc
      have hw1 : (p.1, some p.2) ∈ fixPositions st := (List.of_mem_zip hw).1
      obtain ⟨k2, locs2, hm2, hp2⟩ := (mem_fixPositions_a st p.1 p.2).mp hw1
      obtain ⟨hlocs2, -⟩ := fd_ans_locs questions st hscan k2 locs2 hm2
      have hqid2 : aidAt questions p.1 p.2 = some k2 := by
        have hmm := List.mem_of_mem_drop hp2
        rw [hlocs2] at hmm
        exact (mem_aPositions _ _ _ _).mp hmm
      have hk12 : k = k2 := by
        have := hqid.symm.trans hqid2
        injection this
      subst hk12
      have hent : ((k, locs) : JValue × List (Nat × Nat)) = (k, locs2) :=
        entries_key_injective _
          (findDuplicates_keys_nodup _ (scan_ans_keys questions st hscan))
          _ _ hm hm2 rfl
      have hll : locs = locs2 := congrArg Prod.snd hent
      rw [← hll] at hp2
      have hndl : locs.Nodup := by
        rw [hlocs, aPositions]
        exact aPositionsFrom_nodup k questions 0
      cases locs with
      | nil => cases hp
      | cons h0 t =>
        have hh0 : h0 = p := by
          rw [List.head?_cons, Option.some_inj] at hp
          exact hp
        rw [List.drop_one, List.tail_cons] at hp2
        have hp2' : h0 ∈ t := by
          rw [hh0]
          simpa using hp2
        exact (List.nodup_cons.mp hndl).1 hp2'
    have hpres := idAtP_applyWrites_not_mem ((fixPositions st).zip news) questions
      (p.1, some p.2) hnotw
    rw [hqs]
    have hfinal : idAtP (applyWrites questions ((fixPositions st).zip news))
        (p.1, some p.2) = some k := by
      rw [hpres]
      exact hqid
    exact hfinal
  · rw [hlog]
    simp only [List.nil_append, List.length_zip, hlen, Nat.min_self]
    exact fixPositions_length_sub st

/-- Witness for C2 at the concrete duplicate document: the single fresh
identifier of the repaired run differs from the duplicated value "a". -/
theorem repair_fresh_ids_unique_w :
    (wFixRun.log.map Prod.snd).Nodup ∧ JValue.str "g0" ≠ JValue.str "a" :=
  ⟨(repair_fresh_ids_unique wQs wScanSt wGen 3 wFixRun (by decide) (by decide)).1,
   (repair_fresh_ids_unique wQs wScanSt wGen 3 wFixRun (by decide) (by decide)).2
      "g0" (by decide) (JValue.str "a") (Or.inl (by decide))⟩

/-- Witness for C3 at the concrete duplicate document: the first
occurrence of the duplicated value "a" is unchanged and the log holds
exactly one entry (two occurrences minus one group). -/
theorem repair_first_kept_and_count_w :
    qidAt wFixRun.questions 0 = some (JValue.str "a") ∧ wFixRun.log.length = 1 :=
  ⟨(repair_first_kept_and_count wQs wScanSt wGen 3 wFixRun (by decide) (by decide)).1
      (JValue.str "a") [0, 1] (by decide) 0 (by decide),
   ((repair_first_kept_and_count wQs wScanSt wGen 3 wFixRun (by decide) (by decide)).2.2).trans
      (by decide)⟩

/- ------------------------------------------------------------------
Support for idempotence: reading the repaired document
------------------------------------------------------------------ -/

theorem isObj_of_idOf (q k : JValue) (h : idOf q = some k) : isObj q = true := by
  cases q <;> simp [idOf, isObj] at h ⊢

theorem writable_of_qidAt (qs : List JValue) (qi : Nat) (k : JValue)
    (h : qidAt qs qi = some k) : writableP qs (qi, none) := by
  simp only [qidAt] at h
  cases hn : nth qs qi with
  | none => rw [hn] at h; cases h
  | some q =>
    rw [hn] at h
    exact ⟨q, hn, isObj_of_idOf q k h⟩

theorem writable_of_aidAt (qs : List JValue) (qi ai : Nat) (k : JValue)
    (h : aidAt qs qi ai = some k) : writableP qs (qi, some ai) := by
  simp only [aidAt] at h
  cases hn : nth qs qi with
  | none => rw [hn] at h; cases h
  | some q =>
    rw [hn] at h
    have h2 : (match nth (answersOf q) ai with
        | some a => idOf a
        | none => none) = some k := h
    cases hna : nth (answersOf q) ai with
    | none => rw [hna] at h2; cases h2
    | some a =>
      rw [hna] at h2
      exact ⟨q, a, hn, hna, isObj_of_idOf a k h2⟩

theorem mem_eq_of_length_le_one (l : List α) (h : l.length ≤ 1) :
    ∀ a ∈ l, ∀ b ∈ l, a = b := by
  cases l with
  | nil => intro a ha; cases ha
  | cons x t =>
    cases t with
    | nil =>
      intro a ha b hb
      rw [List.mem_singleton] at ha hb
      rw [ha, hb]
    | cons y t2 => simp at h

theorem length_le_one_of_forall_eq (l : List α) (hnd : l.Nodup)
    (h : ∀ a ∈ l, ∀ b ∈ l, a = b) : l.length ≤ 1 := by
  cases l with
  | nil => simp
  | cons x t =>
    cases t with
    | nil => simp
    | cons y t2 =>
      have hxy : x = y :=
        h x (List.mem_cons_self _ _) y (List.mem_cons_of_mem _ (List.mem_cons_self _ _))
      rw [List.nodup_cons] at hnd
      exact absurd (hxy ▸ List.mem_cons_self y t2) hnd.1

theorem eq_of_mem_not_drop (l : List α) (a b : α) (ha : a ∈ l) (ha2 : a ∉ l.drop 1)
    (hb : b ∈ l) (hb2 : b ∉ l.drop 1) : a = b := by
  cases l with
  | nil => cases ha
  | cons h t =>
    rw [List.drop_one, List.tail_cons] at ha2 hb2
    rcases List.mem_cons.mp ha with rfl | ha'
    · rcases List.mem_cons.mp hb with rfl | hb'
      · rfl
      · exact absurd hb' hb2
    · exact absurd ha' ha2

theorem snd_injective_of_nodup {χ σ : Type} (ws : List (χ × σ))
    (h : (ws.map Prod.snd).Nodup) :
    ∀ a ∈ ws, ∀ b ∈ ws, a.2 = b.2 → a = b := by
  induction ws with
  | nil => intro a ha; cases ha
  | cons w rest ih =>
    rw [List.map_cons, List.nodup_cons] at h
    intro a ha b hb hs
    rcases List.mem_cons.mp ha with rfl | ha'
    · rcases List.mem_cons.mp hb with rfl | hb'
      · rfl
      · exact absurd (List.mem_map.mpr ⟨b, hb', hs.symm⟩) h.1
    · rcases List.mem_cons.mp hb with rfl | hb'
      · exact absurd (List.mem_map.mpr ⟨a, ha', hs⟩) h.1
      · exact ih h.2 a ha' b hb' hs

theorem final_qid_cases (questions : List JValue) (st : ScanState) (news : List String)
    (hscan : scanQuestions questions = .ok st)
    (hlen : news.length = (fixPositions st).length)
    (qi : Nat) (k : JValue)
    (h : qidAt (applyWrites questions ((fixPositions st).zip news)) qi = some k) :
    (∃ v, ((qi, (none : Option Nat)), v) ∈ (fixPositions st).zip news ∧ k = JValue.str v)
    ∨ ((qi, (none : Option Nat)) ∉ fixPositions st ∧ qidAt questions qi = some k) := by
  have hmapfst : ((fixPositions st).zip news).map Prod.fst = fixPositions st :=
    List.map_fst_zip (fixPositions st) news (by omega)
  by_cases hmem : (qi, (none : Option Nat)) ∈ fixPositions st
  · left
    obtain ⟨w, hw, hw1⟩ := List.mem_map.mp (by rw [hmapfst]; exact hmem)
    obtain ⟨k0, locs0, hm0, hd0⟩ := (mem_fixPositions_q st qi).mp hmem
    have hq0 : qidAt questions qi = some k0 := by
      obtain ⟨hlocs0, -⟩ := fd_qid_locs questions st hscan k0 locs0 hm0
      have hmm := List.mem_of_mem_drop hd0
      rw [hlocs0] at hmm
      exact (mem_qPositions _ _ _).mp hmm
    have hwr : writableP questions (qi, none) := writable_of_qidAt questions qi k0 hq0
    have hnodup : (((fixPositions st).zip news).map Prod.fst).Nodup := by
      rw [hmapfst]
      exact fixPositions_nodup questions st hscan
    have hwpair : ((qi, (none : Option Nat)), w.2) ∈ (fixPositions st).zip news := by
      have hwe : w = ((qi, none), w.2) := Prod.ext hw1 rfl
      rw [← hwe]
      exact hw
    have hread := idAtP_applyWrites_mem ((fixPositions st).zip news) questions hnodup
      (qi, none) w.2 hwpair hwr
    have hidp : idAtP (applyWrites questions ((fixPositions st).zip news)) (qi, none) =
        some k := h
    rw [hread] at hidp
    by_cases hv : w.2 = ""
    · rw [if_pos hv] at hidp
      cases hidp
    · rw [if_neg hv] at hidp
      injection hidp with hidp
      exact ⟨w.2, hwpair, hidp.symm⟩
  · right
    refine ⟨hmem, ?_⟩
    have hnot : ∀ w ∈ (fixPositions st).zip news,
        w.1 ≠ ((qi, (none : Option Nat))) := by
      intro w hw hc
      apply hmem
      rw [← hc, ← hmapfst]
      exact List.mem_map.mpr ⟨w, hw, rfl⟩
    have hpres := idAtP_applyWrites_not_mem ((fixPositions st).zip news) questions
      (qi, none) hnot
    have hidp : idAtP (applyWrites questions ((fixPositions st).zip news)) (qi, none) =
        some k := h
    rw [hpres] at hidp
    exact hidp

theorem final_aid_cases (questions : List JValue) (st : ScanState) (news : List String)
    (hscan : scanQuestions questions = .ok st)
    (hlen : news.length = (fixPositions st).length)
    (qi ai : Nat) (k : JValue)
    (h : aidAt (applyWrites questions ((fixPositions st).zip news)) qi ai = some k) :
    (∃ v, ((qi, some ai), v) ∈ (fixPositions st).zip news ∧ k = JValue.str v)
    ∨ ((qi, some ai) ∉ fixPositions st ∧ aidAt questions qi ai = some k) := by
  have hmapfst : ((fixPositions st).zip news).map Prod.fst = fixPositions st :=
    List.map_fst_zip (fixPositions st) news (by omega)
  by_cases hmem : (qi, some ai) ∈ fixPositions st
  · left
    obtain ⟨w, hw, hw1⟩ := List.mem_map.mp (by rw [hmapfst]; exact hmem)
    obtain ⟨k0, locs0, hm0, hd0⟩ := (mem_fixPositions_a st qi ai).mp hmem
    have hq0 : aidAt questions qi ai = some k0 := by
      obtain ⟨hlocs0, -⟩ := fd_ans_locs questions st hscan k0 locs0 hm0
      have hmm := List.mem_of_mem_drop hd0
      rw [hlocs0] at hmm
      exact (mem_aPositions _ _ _ _).mp hmm
    have hwr : writableP questions (qi, some ai) := writable_of_aidAt questions qi ai k0 hq0
    have hnodup : (((fixPositions st).zip news).map Prod.fst).Nodup := by
      rw [hmapfst]
      exact fixPositions_nodup questions st hscan
    have hwpair : ((qi, some ai), w.2) ∈ (fixPositions st).zip news := by
      have hwe : w = ((qi, some ai), w.2) := Prod.ext hw1 rfl
      rw [← hwe]
      exact hw
    have hread := idAtP_applyWrites_mem ((fixPositions st).zip news) questions hnodup
      (qi, some ai) w.2 hwpair hwr
    have hidp : idAtP (applyWrites questions ((fixPositions st).zip news)) (qi, some ai) =
        some k := h
    rw [hread] at hidp
    by_cases hv : w.2 = ""
    · rw [if_pos hv] at hidp
      cases hidp
    · rw [if_neg hv] at hidp
      injection hidp with hidp
      exact ⟨w.2, hwpair, hidp.symm⟩
  · right
    refine ⟨hmem, ?_⟩
    have hnot : ∀ w ∈ (fixPositions st).zip news, w.1 ≠ ((qi, some ai)) := by
      intro w hw hc
      apply hmem
      rw [← hc, ← hmapfst]
      exact List.mem_map.mpr ⟨w, hw, rfl⟩
    have hpres := idAtP_applyWrites_not_mem ((fixPositions st).zip news) questions
      (qi, some ai) hnot
    have hidp : idAtP (applyWrites questions ((fixPositions st).zip news)) (qi, some ai) =
        some k := h
    rw [hpres] at hidp
    exact hidp

/-- Claim C4: repair is idempotent.  After a terminating repair run, the
repaired question list scans cleanly: no duplicate group remains in
either class, the set of positions to rewrite is empty, and a second
repair run (with any token stream) performs zero replacements and leaves
the document untouched. -/
theorem repair_idempotent :
    ∀ (questions : List JValue) (st : ScanState) (gen : Nat → String) (fuel : Nat)
      (res : FixState),
      scanQuestions questions = .ok st →
      runFixLoop gen fuel ⟨questions, st.allIds, 0, []⟩ (fixPositions st) = some res →
      ∃ st2, scanQuestions res.questions = .ok st2
        ∧ findDuplicates st2.qidOcc = []
        ∧ findDuplicates st2.ansOcc = []
        ∧ fixPositions st2 = []
        ∧ ∀ (gen2 : Nat → String) (fuel2 : Nat),
            runFixLoop gen2 fuel2 ⟨res.questions, st2.allIds, 0, []⟩ (fixPositions st2) =
              some ⟨res.questions, st2.allIds, 0, []⟩ := by
  intro questions st gen fuel res hscan hrun
  obtain ⟨news, hlen, hlog, hqs, hnd, hfresh, hids⟩ :=
    runFixLoop_spec gen fuel (fixPositions st) _ res hrun
  simp only at hlog hqs hfresh hids
  have hlen' : news.length = (fixPositions st).length := hlen
  have hdoc2 : docOk res.questions = true := by
    rw [hqs]
    exact docOk_applyWrites _ _ (scan_docOk questions st hscan)
  have hscan2 : scanQuestions res.questions = .ok (scanFromT 0 ⟨[], [], []⟩ res.questions) :=
    (scanQuestions_ok _ _).mpr ⟨hdoc2, rfl⟩
  have hsndnd : (((fixPositions st).zip news).map Prod.snd).Nodup := by
    rw [List.map_snd_zip _ _ (by omega)]
    exact hnd
  have hqinj : ∀ k : JValue, ∀ qi ∈ qPositions res.questions k,
      ∀ qj ∈ qPositions res.questions k, qi = qj := by
    intro k qi hqi qj hqj
    have h1 := (mem_qPositions _ _ _).mp hqi
    have h2 := (mem_qPositions _ _ _).mp hqj
    rw [hqs] at h1 h2
    rcases final_qid_cases questions st news hscan hlen' qi k h1 with
      ⟨v, hv, rfl⟩ | ⟨hni, hqi0⟩
    · rcases final_qid_cases questions st news hscan hlen' qj (JValue.str v) h2 with
        ⟨v2, hv2, he2⟩ | ⟨hnj, hqj0⟩
      · have hvv : v = v2 := by injection he2
        subst hvv
        have heq := snd_injective_of_nodup _ hsndnd _ hv _ hv2 rfl
        have hfsteq := congrArg Prod.fst heq
        exact congrArg Prod.fst hfsteq
      · exfalso
        have hvnews : v ∈ news := (List.of_mem_zip hv).2
        have hnotin := hfresh v hvnews
        exact hnotin ((scan_allIds questions st hscan _).mpr
          (Or.inl (List.ne_nil_of_mem ((mem_qPositions _ _ _).mpr hqj0))))
    · rcases final_qid_cases questions st news hscan hlen' qj k h2 with
        ⟨v2, hv2, rfl⟩ | ⟨hnj, hqj0⟩
      · exfalso
        have hvnews : v2 ∈ news := (List.of_mem_zip hv2).2
        have hnotin := hfresh v2 hvnews
        exact hnotin ((scan_allIds questions st hscan _).mpr
          (Or.inl (List.ne_nil_of_mem ((mem_qPositions _ _ _).mpr hqi0))))
      · have hqi1 : qi ∈ qPositions questions k := (mem_qPositions _ _ _).mpr hqi0
        have hqj1 : qj ∈ qPositions questions k := (mem_qPositions _ _ _).mpr hqj0
        by_cases hlen2 : 1 < (qPositions questions k).length
        · have hocc : occList st.qidOcc k = qPositions questions k :=
            scan_qidOcc questions st hscan k
          have hne : occList st.qidOcc k ≠ [] := by
            rw [hocc]
            exact List.ne_nil_of_mem hqi1
          have hmem0 := mem_of_occList_ne st.qidOcc k hne
          have hfd : (k, occList st.qidOcc k) ∈ findDuplicates st.qidOcc :=
            (mem_findDuplicates _ _).mpr ⟨hmem0, by
              show 1 < (occList st.qidOcc k).length
              rw [hocc]
              exact hlen2⟩
          have hdropi : qi ∉ (qPositions questions k).drop 1 := by
            intro hd
            exact hni ((mem_fixPositions_q st qi).mpr
              ⟨k, occList st.qidOcc k, hfd, by rw [hocc]; exact hd⟩)
          have hdropj : qj ∉ (qPositions questions k).drop 1 := by
            intro hd
            exact hnj ((mem_fixPositions_q st qj).mpr
              ⟨k, occList st.qidOcc k, hfd, by rw [hocc]; exact hd⟩)
          exact eq_of_mem_not_drop _ qi qj hqi1 hdropi hqj1 hdropj
        · exact mem_eq_of_length_le_one _ (by omega) qi hqi1 qj hqj1
  have hainj : ∀ k : JValue, ∀ p ∈ aPositions res.questions k,
      ∀ p2 ∈ aPositions res.questions k, p = p2 := by
    intro k p hp p2 hp2
    have h1 := (mem_aPositions _ _ p.1 p.2).mp (by simpa using hp)
    have h2 := (mem_aPositions _ _ p2.1 p2.2).mp (by simpa using hp2)
    rw [hqs] at h1 h2
    rcases final_aid_cases questions st news hscan hlen' p.1 p.2 k h1 with
      ⟨v, hv, rfl⟩ | ⟨hni, hqi0⟩
    · rcases final_aid_cases questions st news hscan hlen' p2.1 p2.2 (JValue.str v) h2 with
        ⟨v2, hv2, he2⟩ | ⟨hnj, hqj0⟩
      · have hvv : v = v2 := by injection he2
        subst hvv
        have heq := snd_injective_of_nodup _ hsndnd _ hv _ hv2 rfl
        have hq12 : p.1 = p2.1 := by
          have h0 := congrArg (fun x => x.1.1) heq
          simpa using h0
        have ha12 : p.2 = p2.2 := by
          have h0 := congrArg (fun x => x.1.2) heq
          simpa using h0
        exact Prod.ext hq12 ha12
      · exfalso
        have hvnews : v ∈ news := (List.of_mem_zip hv).2
        have hnotin := hfresh v hvnews
        exact hnotin ((scan_allIds questions st hscan _).mpr
          (Or.inr (List.ne_nil_of_mem ((mem_aPositions _ _ _ _).mpr hqj0))))
    · rcases final_aid_cases questions st news hscan hlen' p2.1 p2.2 k h2 with
        ⟨v2, hv2, rfl⟩ | ⟨hnj, hqj0⟩
      · exfalso
        have hvnews : v2 ∈ news := (List.of_mem_zip hv2).2
        have hnotin := hfresh v2 hvnews
        exact hnotin ((scan_allIds questions st hscan _).mpr
          (Or.inr (List.ne_nil_of_mem ((mem_aPositions _ _ _ _).mpr hqi0))))
      · have hqi1 : p ∈ aPositions questions k := by
          have := (mem_aPositions questions k p.1 p.2).mpr hqi0
          simpa using this
        have hqj1 : p2 ∈ aPositions questions k := by
          have := (mem_aPositions questions k p2.1 p2.2).mpr hqj0
          simpa using this
        by_cases hlen2 : 1 < (aPositions questions k).length
        · have hocc : occList st.ansOcc k = aPositions questions k :=
            scan_ansOcc questions st hscan k
          have hne : occList st.ansOcc k ≠ [] := by
            rw [hocc]
            exact List.ne_nil_of_mem hqi1
          have hmem0 := mem_of_occList_ne st.ansOcc k hne
          have hfd : (k, occList st.ansOcc k) ∈ findDuplicates st.ansOcc :=
            (mem_findDuplicates _ _).mpr ⟨hmem0, by
              show 1 < (occList st.ansOcc k).length
              rw [hocc]
              exact hlen2⟩
          have hdropi : p ∉ (aPositions questions k).drop 1 := by
            intro hd
            apply hni
            apply (mem_fixPositions_a st p.1 p.2).mpr
            refine ⟨k, occList st.ansOcc k, hfd, ?_⟩
            rw [hocc]
            simpa using hd
          have hdropj : p2 ∉ (aPositions questions k).drop 1 := by
            intro hd
            apply hnj
            apply (mem_fixPositions_a st p2.1 p2.2).mpr
            refine ⟨k, occList st.ansOcc k, hfd, ?_⟩
            rw [hocc]
            simpa using hd
          exact eq_of_mem_not_drop _ p p2 hqi1 hdropi hqj1 hdropj
        · exact mem_eq_of_length_le_one _ (by omega) p hqi1 p2 hqj1
  have hkeysq : ((scanFromT 0 ⟨[], [], []⟩ res.questions).qidOcc.map Prod.fst).Nodup :=
    scan_qid_keys _ _ hscan2
  have hkeysa : ((scanFromT 0 ⟨[], [], []⟩ res.questions).ansOcc.map Prod.fst).Nodup :=
    scan_ans_keys _ _ hscan2
  have hfdq : findDuplicates (scanFromT 0 ⟨[], [], []⟩ res.questions).qidOcc = [] := by
    rw [findDuplicates, List.filter_eq_nil_iff]
    intro e he
    simp only [decide_eq_true_eq, not_lt]
    have he2 : occList (scanFromT 0 ⟨[], [], []⟩ res.questions).qidOcc e.1 = e.2 :=
      occList_of_mem _ hkeysq e.1 e.2 he
    rw [← he2, scan_qidOcc _ _ hscan2]
    apply length_le_one_of_forall_eq
    · rw [qPositions]
      exact qPositionsFrom_nodup e.1 res.questions 0
    · exact hqinj e.1
  have hfda : findDuplicates (scanFromT 0 ⟨[], [], []⟩ res.questions).ansOcc = [] := by
    rw [findDuplicates, List.filter_eq_nil_iff]
    intro e he
    simp only [decide_eq_true_eq, not_lt]
    have he2 : occList (scanFromT 0 ⟨[], [], []⟩ res.questions).ansOcc e.1 = e.2 :=
      occList_of_mem _ hkeysa e.1 e.2 he
    rw [← he2, scan_ansOcc _ _ hscan2]
    apply length_le_one_of_forall_eq
    · rw [aPositions]
      exact aPositionsFrom_nodup e.1 res.questions 0
    · exact hainj e.1
  have hfp : fixPositions (scanFromT 0 ⟨[], [], []⟩ res.questions) = [] := by
    rw [fixPositions, hfdq, hfda]
    rfl
  exact ⟨scanFromT 0 ⟨[], [], []⟩ res.questions, hscan2, hfdq, hfda, hfp,
    fun gen2 fuel2 => by rw [hfp]; rfl⟩

/-- Witness for C4 at the concrete duplicate document: the repaired list
scans with no remaining duplicate group and an empty set of positions to
rewrite. -/
theorem repair_idempotent_w :
    ∃ st2, scanQuestions wFixRun.questions = .ok st2
      ∧ findDuplicates st2.qidOcc = []
      ∧ findDuplicates st2.ansOcc = []
      ∧ fixPositions st2 = []
      ∧ ∀ (gen2 : Nat → String) (fuel2 : Nat),
          runFixLoop gen2 fuel2 ⟨wFixRun.questions, st2.allIds, 0, []⟩ (fixPositions st2) =
            some ⟨wFixRun.questions, st2.allIds, 0, []⟩ :=
  repair_idempotent wQs wScanSt wGen 3 wFixRun (by decide) (by decide)
